import Mathlib

set_option autoImplicit false

/-!
# Verification of the bbkm mesh-modification pipeline

Shallow embedding of the triangle-mesh editing core of the repository
(`src/bbkm/modifications.py`, together with the gap-analysis helper in
`src/bbkm/analyzer.py`).  Coordinates are exact rationals standing in for
IEEE floats; numpy array operations are rendered as list operations.
Library calls that live outside the repository (`trimesh` repair methods,
`scipy.spatial.Delaunay`, `numpy.cos`/`sin`) are modelled from the spec,
as noted on each definition.
-/

/-- A 3D point: one row of the `vertices` array. -/
structure Pt where
  x : ℚ
  y : ℚ
  z : ℚ
deriving DecidableEq, Repr

def Pt.zero : Pt := ⟨0, 0, 0⟩

/-- A triangle: three indices into the vertex list (one row of `faces`). -/
structure Face where
  a : Nat
  b : Nat
  c : Nat
deriving DecidableEq, Repr

/-- A triangle mesh, as in `trimesh.Trimesh`: an ordered vertex list and an
ordered face list. -/
structure Mesh where
  vertices : List Pt
  faces : List Face
deriving DecidableEq, Repr

/-- Embeds `np.round(q, decimals=2)`: round to a multiple of 1/100.  (numpy rounds
half-ties to even; modelled as half-up since no property here depends on the
tie direction.) -/
def round2 (q : ℚ) : ℚ := (⌊q * 100 + 1/2⌋ : ℤ) / 100

/-- Componentwise rounding of a point to 0.01 mm. -/
def roundPt2 (p : Pt) : Pt := ⟨round2 p.x, round2 p.y, round2 p.z⟩

/-- Embeds `arr.min()` on a list of rationals for the nonempty case; on the
empty list numpy raises, a path this total function does not model — the
fallible entry point `addMagsafeRecess?` guards it explicitly, and the other
callers are reached only under hypotheses that keep the list nonempty. -/
def listMin (l : List ℚ) : ℚ :=
  match l with
  | [] => 0
  | x :: xs => xs.foldl min x

/-- Embeds `arr.max()` on a list of rationals; 0 on the empty list. -/
def listMax (l : List ℚ) : ℚ :=
  match l with
  | [] => 0
  | x :: xs => xs.foldl max x

/-- Embeds `vertices[:, 2].min()`: the back-plane height. -/
def zMin (vs : List Pt) : ℚ := listMin (vs.map Pt.z)

/-- Keep the first occurrence of each `key`-class, preserving order.  This is
the canonical first-occurrence deduplication used by the repair modelling. -/
def dedupBy {α β : Type} (key : α → β) [DecidableEq β] : List α → List α
  | [] => []
  | x :: xs => x :: (dedupBy key xs).filter fun y => decide (key y ≠ key x)

/-- Reverse the winding of a face. -/
def revFace (f : Face) : Face := ⟨f.c, f.b, f.a⟩

/-- Median of three naturals, written with `min`/`max` only. -/
def med3 (a b c : Nat) : Nat := max (min a b) (min (max a b) c)

/-- Modelled from the spec (4.4): duplicate-face removal keys a face by its
unordered vertex-index triple; rendered as the sorted triple (min, median,
max). -/
def faceKey (f : Face) : Nat × Nat × Nat :=
  (min f.a (min f.b f.c), med3 f.a f.b f.c, max f.a (max f.b f.c))

def ptSub (p q : Pt) : Pt := ⟨p.x - q.x, p.y - q.y, p.z - q.z⟩

/-- Cross product of two vectors. -/
def cross (u v : Pt) : Pt :=
  ⟨u.y * v.z - u.z * v.y, u.z * v.x - u.x * v.z, u.x * v.y - u.y * v.x⟩

/-- The (doubled-area) normal vector of a face, from its winding. -/
def faceCross (vs : List Pt) (f : Face) : Pt :=
  cross (ptSub (vs.getD f.b Pt.zero) (vs.getD f.a Pt.zero))
        (ptSub (vs.getD f.c Pt.zero) (vs.getD f.a Pt.zero))

/-- Modelled from the spec (4.4): a degenerate face has a repeated vertex
index or zero area. -/
def faceDegenerate (vs : List Pt) (f : Face) : Bool :=
  decide (f.a = f.b) || decide (f.b = f.c) || decide (f.a = f.c) ||
    decide (faceCross vs f = Pt.zero)

/-- The rounding key used to merge near-duplicate vertices. -/
def keyOf (p : Pt) : Pt := roundPt2 p

def remapFaceBy (r : Nat → Nat) (f : Face) : Face := ⟨r f.a, r f.b, r f.c⟩

/-- Where old vertex index `i` lands after merging: the position of the first
vertex sharing its rounding key. -/
def mergeRemap (vs : List Pt) (i : Nat) : Nat :=
  (dedupBy keyOf vs).findIdx fun q => decide (keyOf q = keyOf (vs.getD i Pt.zero))

/-- Modelled from the spec (4.4): `trimesh.Trimesh.merge_vertices` — merge
vertices within the dedup tolerance (rounding to 0.01 mm), keeping the first
occurrence's original coordinates and remapping all face references. -/
def mergeVertices (m : Mesh) : Mesh :=
  ⟨dedupBy keyOf m.vertices, m.faces.map (remapFaceBy (mergeRemap m.vertices))⟩

/-- Modelled from the spec (4.4): `remove_degenerate_faces`. -/
def removeDegenerateFaces (m : Mesh) : Mesh :=
  ⟨m.vertices, m.faces.filter fun f => !faceDegenerate m.vertices f⟩

/-- Modelled from the spec (4.4): `remove_duplicate_faces` — same unordered
vertex-index set regardless of winding, keep the first. -/
def removeDuplicateFaces (m : Mesh) : Mesh :=
  ⟨m.vertices, dedupBy faceKey m.faces⟩

/-- Is vertex index `i` referenced by some face? -/
def referencedIdx (fs : List Face) (i : Nat) : Bool :=
  fs.any fun f => decide (f.a = i) || decide (f.b = i) || decide (f.c = i)

/-- New index of old index `i` after dropping unreferenced vertices: the
number of referenced indices below `i`. -/
def rankIdx (fs : List Face) (i : Nat) : Nat :=
  ((List.range i).filter (referencedIdx fs)).length

/-- Modelled from the spec (4.4): `remove_unreferenced_vertices`. -/
def removeUnreferencedVertices (m : Mesh) : Mesh :=
  ⟨((List.range m.vertices.length).filter (referencedIdx m.faces)).map
      (fun i => m.vertices.getD i Pt.zero),
   m.faces.map (remapFaceBy (rankIdx m.faces))⟩

/-- The fixed repair sequence run after every structural edit: merge vertices,
remove degenerate faces, remove duplicate faces, remove unreferenced
vertices. -/
def repairMesh (m : Mesh) : Mesh :=
  removeUnreferencedVertices (removeDuplicateFaces (removeDegenerateFaces (mergeVertices m)))

/-- Reverse the winding of the faces selected by `flip`, keeping positions. -/
def flipFaces (flip : Nat → Bool) : Nat → List Face → List Face
  | _, [] => []
  | i, f :: fs => (if flip i then revFace f else f) :: flipFaces flip (i + 1) fs

/-- Modelled from the spec (4.4/glossary): `fix_normals` recomputes consistent
outward-facing winding by connectivity propagation; it reverses the winding of
some faces and changes nothing else.  The propagation's flip decision is
abstracted as the parameter `flip`. -/
def fixNormals (flip : Nat → Bool) (m : Mesh) : Mesh :=
  ⟨m.vertices, flipFaces flip 0 m.faces⟩

/-- Embeds `np.arange(start, stop, 2.0)`. -/
def arange2 (start stop : ℚ) : List ℚ :=
  (List.range (Int.toNat ⌈(stop - start) / 2⌉)).map fun k : Nat => start + 2 * (k : ℚ)

/-- Embeds `fill_battery_gap`'s back-plane vertex selection (modifications.py lines
17–22): `z_threshold = z_min + 0.5` and the mask is
`|z - z_min| < z_threshold` — the threshold is `z_min + 0.5`, not `0.5`. -/
def backIdxFill (m : Mesh) : List Nat :=
  let vs := m.vertices
  let zmin := zMin vs
  let zthr := zmin + 1/2
  (List.range vs.length).filter fun i => decide (|(vs.getD i Pt.zero).z - zmin| < zthr)

/-- The positions of the selected back vertices (`back_verts`). -/
def backVertsFill (m : Mesh) : List Pt :=
  (backIdxFill m).map fun i => m.vertices.getD i Pt.zero

/-- Embeds `x_min, y_min, x_max, y_max` of the back vertices. -/
def fillBounds (m : Mesh) : ℚ × ℚ × ℚ × ℚ :=
  let bv := backVertsFill m
  (listMin (bv.map Pt.x), listMin (bv.map Pt.y), listMax (bv.map Pt.x), listMax (bv.map Pt.y))

/-- The grid of candidate infill points (modifications.py lines 33–44): a
2 mm-spaced grid over the back bounding box, kept when inside the (full)
rectangular boundary, at height `z_min`. -/
def newGridVertices (m : Mesh) : List Pt :=
  let b := fillBounds m
  let zmin := zMin m.vertices
  (arange2 b.1 b.2.2.1).flatMap fun x =>
    (arange2 b.2.1 b.2.2.2).filterMap fun y =>
      if b.1 ≤ x ∧ x ≤ b.2.2.1 ∧ b.2.1 ≤ y ∧ y ≤ b.2.2.2 then some ⟨x, y, zmin⟩
      else none

/-- Lexicographic comparison of points. -/
def ptLe (p q : Pt) : Bool :=
  decide (p.x < q.x) ||
    (decide (p.x = q.x) &&
      (decide (p.y < q.y) || (decide (p.y = q.y) && decide (p.z ≤ q.z))))

def insertPt (p : Pt) : List Pt → List Pt
  | [] => [p]
  | q :: qs => if ptLe p q then p :: q :: qs else q :: insertPt p qs

/-- Insertion sort by the lexicographic order (the row sort of `np.unique`). -/
def sortPts : List Pt → List Pt
  | [] => []
  | p :: ps => insertPt p (sortPts ps)

/-- Embeds `np.unique(np.round(all_back_points, 2), axis=0)`: the sorted
deduplicated rounded points (modifications.py lines 50–57). -/
def uniquePointsFill (m : Mesh) : List Pt :=
  sortPts (dedupBy id ((backVertsFill m ++ newGridVertices m).map roundPt2))

/-- Offset new-face indices past the existing vertices
(`tri.simplices + vertex_offset`). -/
def shiftFace (o : Nat) (f : Face) : Face := ⟨o + f.a, o + f.b, o + f.c⟩

/-- The mesh assembled by `fill_battery_gap` before repair (modifications.py
lines 46–70): if grid points were generated and more than 3 unique points
remain after dedup, append the unique points as vertices and the offset
triangulation as faces; otherwise pass the mesh through unchanged.  `tri`
abstracts `scipy.spatial.Delaunay` (external library): it maps the 2D point
set to a list of triangles over those points. -/
def fillAssembled (tri : List (ℚ × ℚ) → List Face) (m : Mesh) : Mesh :=
  if newGridVertices m = [] then m
  else if 3 < (uniquePointsFill m).length then
    ⟨m.vertices ++ uniquePointsFill m,
     m.faces ++ (tri ((uniquePointsFill m).map fun p => (p.x, p.y))).map
        (shiftFace m.vertices.length)⟩
  else m

/-- Embeds `fill_battery_gap` (src/bbkm/modifications.py): if no back vertices are
selected, return the mesh unchanged (early return, no repair); otherwise
assemble the infill and run the repair sequence. -/
def fillBatteryGap (tri : List (ℚ × ℚ) → List Face) (m : Mesh) : Mesh :=
  if backIdxFill m = [] then m else repairMesh (fillAssembled tri m)

/-- Squared XY distance from the recess center (the code compares
`sqrt(dx^2+dy^2)` against radii; squared form is its exact equivalent for
nonnegative radii). -/
def distSqXY (v : Pt) (c : ℚ × ℚ) : ℚ := (v.x - c.1) ^ 2 + (v.y - c.2) ^ 2

/-- Recess center: the XY bounding-box midpoint when no position is given. -/
def recessCenter (position : Option (ℚ × ℚ)) (vs : List Pt) : ℚ × ℚ :=
  match position with
  | none => ((listMin (vs.map Pt.x) + listMax (vs.map Pt.x)) / 2,
             (listMin (vs.map Pt.y) + listMax (vs.map Pt.y)) / 2)
  | some c => c

/-- The ring-band displacement (modifications.py lines 110–133): vertices on
the back surface strictly between the radii move up by `depth`; everything
else is untouched. -/
def recessDisplace (center : ℚ × ℚ) (outerR innerR depth zmin : ℚ)
    (vs : List Pt) : List Pt :=
  vs.map fun v =>
    if |v.z - zmin| < 1/2 ∧ innerR ^ 2 < distSqXY v center ∧ distSqXY v center ≤ outerR ^ 2
    then ⟨v.x, v.y, v.z + depth⟩ else v

/-- Embeds `num_segments = 64`. -/
def numSegments : Nat := 64

/-- Embeds `np.linspace(a, b, n, endpoint=False)`: `n` samples `a + (b-a)*k/n`. -/
def linspaceNoEnd (a b : ℚ) (n : Nat) : List ℚ :=
  (List.range n).map fun k : Nat => a + (b - a) * (k : ℚ) / (n : ℚ)

/-- The sampled wall angles, `np.linspace(0, 2π, 64, endpoint=False)`; the
irrational 2π is the parameter `twoPi`. -/
def recessAngles (twoPi : ℚ) : List ℚ := linspaceNoEnd 0 twoPi numSegments

/-- One ring of wall vertices at radius `r`: bottom then top per segment
(modifications.py lines 143–158).  `circle k` abstracts
`(cos angles[k], sin angles[k])` (external `numpy` trig on floats). -/
def wallRingVertices (circle : Nat → ℚ × ℚ) (center : ℚ × ℚ)
    (r depth zmin : ℚ) : List Pt :=
  (List.range numSegments).flatMap fun k =>
    let c := circle k
    [⟨center.1 + r * c.1, center.2 + r * c.2, zmin⟩,
     ⟨center.1 + r * c.1, center.2 + r * c.2, zmin + depth⟩]

/-- All synthesized wall vertices: outer ring then inner ring. -/
def wallVertices (circle : Nat → ℚ × ℚ) (center : ℚ × ℚ)
    (outerR innerR depth zmin : ℚ) : List Pt :=
  wallRingVertices circle center outerR depth zmin ++
    wallRingVertices circle center innerR depth zmin

/-- The outer-wall face pair of segment `i` (modifications.py lines 170–179). -/
def outWallPair (o n i : Nat) : List Face :=
  let ni := (i + 1) % n
  [⟨o + 2*i, o + 2*i + 1, o + 2*ni + 1⟩, ⟨o + 2*i, o + 2*ni + 1, o + 2*ni⟩]

/-- The inner-wall face pair of segment `i`, with winding reversed
(modifications.py lines 181–190). -/
def inWallPair (o n i : Nat) : List Face :=
  let b := o + 2*n
  let ni := (i + 1) % n
  [⟨b + 2*i, b + 2*ni, b + 2*ni + 1⟩, ⟨b + 2*i, b + 2*ni + 1, b + 2*i + 1⟩]

/-- The synthesized wall faces, in the loop's order: outer pair then inner
pair per segment. -/
def wallFaces (o n : Nat) : List Face :=
  (List.range n).flatMap fun i => outWallPair o n i ++ inWallPair o n i

/-- All outer-wall faces. -/
def outerWallFaces (o n : Nat) : List Face := (List.range n).flatMap (outWallPair o n)

/-- All inner-wall faces. -/
def innerWallFaces (o n : Nat) : List Face := (List.range n).flatMap (inWallPair o n)

/-- The mesh assembled by `add_magsafe_recess` just before cleanup: displaced
vertices plus wall vertices, original faces plus wall faces. -/
def recessAssembled (circle : Nat → ℚ × ℚ) (outerR innerR depth : ℚ)
    (position : Option (ℚ × ℚ)) (m : Mesh) : Mesh :=
  let vs := m.vertices
  let center := recessCenter position vs
  let zmin := zMin vs
  let displaced := recessDisplace center outerR innerR depth zmin vs
  ⟨displaced ++ wallVertices circle center outerR innerR depth zmin,
   m.faces ++ wallFaces displaced.length numSegments⟩

/-- Embeds `add_magsafe_recess` (src/bbkm/modifications.py): displace, synthesize
walls, repair, fix normals. -/
def addMagsafeRecess (flip : Nat → Bool) (circle : Nat → ℚ × ℚ)
    (outerR innerR depth : ℚ) (position : Option (ℚ × ℚ)) (m : Mesh) : Mesh :=
  fixNormals flip (repairMesh (recessAssembled circle outerR innerR depth position m))

/-- The back-surface vertex index set of `add_magsafe_recess`
(modifications.py line 116): mask `|z - z_min| < 0.5`. -/
def backIdxRecess (m : Mesh) : List Nat :=
  (List.range m.vertices.length).filter fun i =>
    decide (|(m.vertices.getD i Pt.zero).z - zMin m.vertices| < 1/2)

/-- The fallible entry point of `add_magsafe_recess`: on a vertex-less mesh
the Python raises before synthesizing anything (`vertices[:, 2].min()` on an
empty array raises `ValueError`, and `mesh.bounds` is `None` at lines
97–106), modelled as `none`; on any mesh with a vertex it runs to completion
and returns the modified mesh. -/
def addMagsafeRecess? (flip : Nat → Bool) (circle : Nat → ℚ × ℚ)
    (outerR innerR depth : ℚ) (position : Option (ℚ × ℚ)) (m : Mesh) : Option Mesh :=
  if m.vertices = [] then none
  else some (addMagsafeRecess flip circle outerR innerR depth position m)

/-- Embeds `apply_modifications` (src/bbkm/modifications.py): optional gap fill, then
optional recess with the hardcoded ring spec, then a final normal fix. -/
def applyModifications (flip : Nat → Bool) (tri : List (ℚ × ℚ) → List Face)
    (circle : Nat → ℚ × ℚ) (removeGap addRecess : Bool)
    (position : Option (ℚ × ℚ)) (m : Mesh) : Mesh :=
  let m1 := if removeGap then fillBatteryGap tri m else m
  let m2 := if addRecess then addMagsafeRecess flip circle 28 (45/2) (5/2) position m1
            else m1
  fixNormals flip m2

/-- Embeds `find_battery_gap` (src/bbkm/analyzer.py lines 24–60): bottom vertices are
those with `z ≤ z_min + 2`; the gap-search rectangle is the bottom bounding
box scaled to 60% width/height, centered, spanning `z_min` to `z_min + 5`. -/
def gapSearchBounds (m : Mesh) : Pt × Pt :=
  let vs := m.vertices
  let zmin := zMin vs
  let bottom := vs.filter fun v => decide (v.z ≤ zmin + 2)
  let xmin := listMin (bottom.map Pt.x)
  let xmax := listMax (bottom.map Pt.x)
  let ymin := listMin (bottom.map Pt.y)
  let ymax := listMax (bottom.map Pt.y)
  let xc := (xmin + xmax) / 2
  let yc := (ymin + ymax) / 2
  let w := (xmax - xmin) * (3/5)
  let h := (ymax - ymin) * (3/5)
  (⟨xc - w/2, yc - h/2, zmin⟩, ⟨xc + w/2, yc + h/2, zmin + 5⟩)

/-- Rotate the winding of a face one step; a cyclic rotation preserves the
orientation (winding sense) of a triangle. -/
def rotFace (f : Face) : Face := ⟨f.c, f.a, f.b⟩

/-- Does face `f` use both endpoints of the undirected edge `u`–`v`? -/
def hasEdge (u v : Nat) (f : Face) : Bool :=
  (decide (f.a = u) || decide (f.b = u) || decide (f.c = u)) &&
    (decide (f.a = v) || decide (f.b = v) || decide (f.c = v))

/-- The unordered multiset of vertex positions of a face. -/
def facePosKey (m : Mesh) (f : Face) : Multiset Pt :=
  {m.vertices.getD f.a Pt.zero, m.vertices.getD f.b Pt.zero, m.vertices.getD f.c Pt.zero}

/-- A concrete triangulator (triangle fan) used to instantiate the abstract
`tri` parameter in witnesses; like Delaunay, its triangles reference only
in-range point indices. -/
def fanTri (pts : List (ℚ × ℚ)) : List Face :=
  match pts with
  | _ :: _ :: rest => (List.range rest.length).map fun i => ⟨0, i + 1, i + 2⟩
  | _ => []

/-- Every face index is in range (the mesh invariant of spec section 3). -/
def faceInRange (n : Nat) (f : Face) : Prop := f.a < n ∧ f.b < n ∧ f.c < n

instance faceInRange.dec (n : Nat) (f : Face) : Decidable (faceInRange n f) := by
  unfold faceInRange; infer_instance

/-- All faces of the mesh reference valid vertex indices. -/
def Mesh.validFaces (m : Mesh) : Prop := ∀ f ∈ m.faces, faceInRange m.vertices.length f

/-- A mesh in repaired form: no two vertices share a rounding key, no
degenerate faces, no duplicate faces, no unreferenced vertices, and all face
indices in range. -/
def Repaired (m : Mesh) : Prop :=
  (m.vertices.map keyOf).Nodup ∧
  (∀ f ∈ m.faces, faceDegenerate m.vertices f = false) ∧
  (m.faces.map faceKey).Nodup ∧
  (∀ i < m.vertices.length, referencedIdx m.faces i = true) ∧
  m.validFaces

/-! ## Auxiliary definitions, decidability instances and example meshes -/

/-- Generic form of `rankIdx`: how many indices below `i` satisfy `p`. -/
def rankP (p : Nat → Bool) (i : Nat) : Nat := ((List.range i).filter p).length

/-- Generic form of the kept-index list of `removeUnreferencedVertices`. -/
def keptList (n : Nat) (p : Nat → Bool) : List Nat := (List.range n).filter p

/-- Apply a function to all three components of a sorted index triple. -/
def mapTriple (r : Nat → Nat) (t : Nat × Nat × Nat) : Nat × Nat × Nat :=
  (r t.1, r t.2.1, r t.2.2)

instance Mesh.validFaces.dec (m : Mesh) : Decidable m.validFaces := by
  unfold Mesh.validFaces
  infer_instance

instance Repaired.dec (m : Mesh) : Decidable (Repaired m) := by
  unfold Repaired
  infer_instance

/-- Negation of a vector. -/
def ptNeg (p : Pt) : Pt := ⟨-p.x, -p.y, -p.z⟩

/-- A mesh whose back plane sits at `z = 2`: exercises the fill threshold. -/
def exShift : Mesh := ⟨[⟨0, 0, 2⟩, ⟨0, 0, 3⟩, ⟨0, 0, 10⟩], [⟨0, 1, 2⟩]⟩

/-- A 10×10 back plate: exercises the infill grid extent. -/
def exGrid : Mesh := ⟨[⟨0, 0, 0⟩, ⟨10, 10, 0⟩], [⟨0, 1, 0⟩]⟩

/-- Two coincident-after-rounding vertices and a face using them, far above
the back plane. -/
def exFrame : Mesh :=
  ⟨[⟨0, 0, 0⟩, ⟨1, 1, 0⟩, ⟨5, 5, 10⟩, ⟨5, 5, 10001/1000⟩, ⟨6, 5, 10⟩],
   [⟨0, 1, 2⟩, ⟨2, 3, 4⟩]⟩

/-- A small mesh already in repaired form. -/
def exRepaired : Mesh := ⟨[⟨0, 0, 0⟩, ⟨1, 1, 0⟩, ⟨0, 3, 0⟩], [⟨0, 1, 2⟩]⟩

/-- A single off-center vertex with the recess center pinned at the origin. -/
def exRing : Mesh := ⟨[⟨23, 0, 0⟩], []⟩

/-- A single triangle. -/
def exTri : Mesh := ⟨[⟨0, 0, 0⟩, ⟨1, 0, 0⟩, ⟨0, 1, 0⟩], [⟨0, 1, 2⟩]⟩

/-- A stand-in for the sampled unit circle in witnesses. -/
def circleOne : Nat → ℚ × ℚ := fun _ => (1, 0)

/-- A mesh with too few unique back points for triangulation. -/
def exSkip : Mesh := ⟨[⟨0, 0, 0⟩, ⟨1, 1, 0⟩], [⟨0, 1, 0⟩]⟩

/-! ## Library: first-occurrence deduplication -/

theorem dedupBy_sublist {α β : Type} (key : α → β) [DecidableEq β] (l : List α) :
    (dedupBy key l).Sublist l := by
  induction l with
  | nil => exact List.Sublist.refl []
  | cons x xs ih => exact ((List.filter_sublist _).trans ih).cons₂ x

theorem mem_of_mem_dedupBy {α β : Type} {key : α → β} [DecidableEq β] {l : List α} {a : α}
    (h : a ∈ dedupBy key l) : a ∈ l :=
  (dedupBy_sublist key l).subset h

theorem map_key_dedupBy_nodup {α β : Type} (key : α → β) [DecidableEq β] (l : List α) :
    ((dedupBy key l).map key).Nodup := by
  induction l with
  | nil => simp [dedupBy]
  | cons x xs ih =>
    show ((x :: (dedupBy key xs).filter fun y => decide (key y ≠ key x)).map key).Nodup
    rw [List.map_cons]
    refine List.Nodup.cons ?_ (((List.filter_sublist _).map key).nodup ih)
    intro hmem
    rcases List.mem_map.mp hmem with ⟨y, hy, hyk⟩
    have := (List.mem_filter.mp hy).2
    simp only [decide_eq_true_eq] at this
    exact this hyk

theorem dedupBy_eq_self_of_nodup {α β : Type} {key : α → β} [DecidableEq β] {l : List α}
    (h : (l.map key).Nodup) : dedupBy key l = l := by
  induction l with
  | nil => rfl
  | cons x xs ih =>
    simp only [List.map_cons, List.nodup_cons] at h
    show x :: (dedupBy key xs).filter (fun y => decide (key y ≠ key x)) = x :: xs
    rw [ih h.2]
    congr 1
    refine List.filter_eq_self.mpr ?_
    intro y hy
    simp only [decide_eq_true_eq]
    intro hk
    exact h.1 (List.mem_map.mpr ⟨y, hy, hk⟩)

theorem key_mem_map_dedupBy {α β : Type} (key : α → β) [DecidableEq β] (l : List α)
    {k : β} (h : k ∈ l.map key) : k ∈ (dedupBy key l).map key := by
  induction l with
  | nil => simp at h
  | cons x xs ih =>
    show k ∈ ((x :: (dedupBy key xs).filter fun y => decide (key y ≠ key x)).map key)
    rw [List.map_cons]
    simp only [List.map_cons, List.mem_cons] at h
    rcases h with h | h
    · exact List.mem_cons.mpr (Or.inl h)
    · by_cases hk : k = key x
      · exact List.mem_cons.mpr (Or.inl hk)
      · refine List.mem_cons.mpr (Or.inr ?_)
        rcases List.mem_map.mp (ih h) with ⟨y, hy, hyk⟩
        refine List.mem_map.mpr ⟨y, List.mem_filter.mpr ⟨hy, ?_⟩, hyk⟩
        simp only [decide_eq_true_eq]
        intro hkx
        exact hk (hyk ▸ hkx ▸ rfl)

theorem dedupBy_append_of_nodup {α β : Type} (key : α → β) [DecidableEq β] :
    ∀ (l r : List α), ((l.map key).Nodup) →
      ∃ q, dedupBy key (l ++ r) = l ++ q ∧ q.Sublist r := by
  intro l
  induction l with
  | nil =>
    intro r _
    exact ⟨dedupBy key r, rfl, dedupBy_sublist key r⟩
  | cons x xs ih =>
    intro r h
    simp only [List.map_cons, List.nodup_cons] at h
    rcases ih r h.2 with ⟨q, hq, hsub⟩
    refine ⟨q.filter fun y => decide (key y ≠ key x), ?_,
      (List.filter_sublist q).trans hsub⟩
    show x :: (dedupBy key (xs ++ r)).filter (fun y => decide (key y ≠ key x))
        = (x :: xs) ++ q.filter (fun y => decide (key y ≠ key x))
    rw [hq, List.filter_append, List.cons_append]
    congr 2
    refine List.filter_eq_self.mpr ?_
    intro y hy
    simp only [decide_eq_true_eq]
    intro hk
    exact h.1 (List.mem_map.mpr ⟨y, hy, hk⟩)

/-! ## Library: findIdx -/

theorem findIdx_eq_of_first {α : Type} (p : α → Bool) (d : α) :
    ∀ (l : List α) (i : Nat), i < l.length →
      (∀ j, j < i → p (l.getD j d) = false) → p (l.getD i d) = true →
      l.findIdx p = i := by
  intro l
  induction l with
  | nil => intro i hi; simp at hi
  | cons x xs ih =>
    intro i hi hfirst hp
    cases i with
    | zero =>
      simp only [List.getD_cons_zero] at hp
      simp [List.findIdx_cons, hp]
    | succ i =>
      have hx : p x = false := by
        have := hfirst 0 (Nat.succ_pos i)
        simpa using this
      simp only [List.findIdx_cons, hx, cond_false]
      have : xs.findIdx p = i := by
        refine ih i (by simpa using hi) ?_ (by simpa using hp)
        intro j hj
        have := hfirst (j+1) (Nat.succ_lt_succ hj)
        simpa using this
      omega

theorem findIdx_lt_length_of_exists {α : Type} {p : α → Bool} {l : List α}
    (h : ∃ x ∈ l, p x = true) : l.findIdx p < l.length := by
  induction l with
  | nil => simp at h
  | cons x xs ih =>
    by_cases hx : p x = true
    · simp [List.findIdx_cons, hx]
    · have hx' : p x = false := by simpa using hx
      simp only [List.findIdx_cons, hx', cond_false, List.length_cons]
      have : ∃ y ∈ xs, p y = true := by
        rcases h with ⟨y, hy, hyp⟩
        rcases List.mem_cons.mp hy with rfl | hy'
        · exact absurd hyp hx
        · exact ⟨y, hy', hyp⟩
      exact Nat.succ_lt_succ (ih this)

/-! ## Library: ranks of kept indices -/

theorem rankIdx_eq_rankP (fs : List Face) (i : Nat) :
    rankIdx fs i = rankP (referencedIdx fs) i := rfl

theorem rankP_succ_true {p : Nat → Bool} (i : Nat) (h : p i = true) :
    rankP p (i + 1) = rankP p i + 1 := by
  simp [rankP, List.range_succ, List.filter_append, h]

theorem rankP_succ_false {p : Nat → Bool} (i : Nat) (h : p i = false) :
    rankP p (i + 1) = rankP p i := by
  simp [rankP, List.range_succ, List.filter_append, h]

theorem rankP_mono (p : Nat → Bool) : Monotone (rankP p) := by
  intro i j hij
  induction j with
  | zero => exact Nat.le_zero.mp hij ▸ le_rfl
  | succ j ih =>
    rcases Nat.lt_or_ge i (j + 1) with hlt | hge
    · have h1 : rankP p i ≤ rankP p j := ih (by omega)
      rcases Bool.eq_false_or_eq_true (p j) with hp | hp
      · rw [rankP_succ_true j hp]; omega
      · rw [rankP_succ_false j hp]; exact h1
    · have : i = j + 1 := by omega
      subst this; exact le_rfl

theorem rankP_lt_of_true {p : Nat → Bool} {i j : Nat} (h : p i = true) (hij : i < j) :
    rankP p i < rankP p j := by
  have h1 : rankP p i + 1 = rankP p (i + 1) := (rankP_succ_true i h).symm
  have h2 : rankP p (i + 1) ≤ rankP p j := rankP_mono p hij
  omega

theorem length_keptList (n : Nat) (p : Nat → Bool) :
    (keptList n p).length = rankP p n := rfl

theorem rankP_lt_length {p : Nat → Bool} {i n : Nat} (h : p i = true) (hin : i < n) :
    rankP p i < (keptList n p).length := by
  rw [length_keptList]; exact rankP_lt_of_true h hin

theorem keptList_getD_rankP {p : Nat → Bool} {i n : Nat} (h : p i = true) (hin : i < n) :
    (keptList n p).getD (rankP p i) 0 = i := by
  induction n with
  | zero => omega
  | succ n ih =>
    have hsplit : keptList (n + 1) p = keptList n p ++ List.filter p [n] := by
      rw [keptList, List.range_succ, List.filter_append]; rfl
    rcases Nat.lt_or_ge i n with hlt | hge
    · have hr : rankP p i < (keptList n p).length := rankP_lt_length h hlt
      rw [hsplit, List.getD_append _ _ _ _ hr]
      exact ih hlt
    · have hi : i = n := by omega
      subst hi
      have hfl : List.filter p [i] = [i] := by simp [h]
      have hlen : (keptList i p).length = rankP p i := rfl
      rw [hsplit, hfl, List.getD_append_right _ _ _ _ (le_of_eq hlen), hlen, Nat.sub_self]
      rfl

theorem keptList_nodup (n : Nat) (p : Nat → Bool) : (keptList n p).Nodup :=
  (List.nodup_range n).filter p

theorem keptList_surj {p : Nat → Bool} {n j : Nat} (hj : j < (keptList n p).length) :
    ∃ i, p i = true ∧ i < n ∧ rankP p i = j ∧ (keptList n p).getD j 0 = i := by
  have himem : (keptList n p).getD j 0 ∈ keptList n p := by
    rw [List.getD_eq_getElem _ _ hj]; exact List.getElem_mem hj
  have hmem := List.mem_filter.mp himem
  have hip : p ((keptList n p).getD j 0) = true := hmem.2
  have hin : (keptList n p).getD j 0 < n := List.mem_range.mp hmem.1
  refine ⟨(keptList n p).getD j 0, hip, hin, ?_, rfl⟩
  have hr : rankP p ((keptList n p).getD j 0) < (keptList n p).length :=
    rankP_lt_length hip hin
  have h3 : (keptList n p).get ⟨rankP p ((keptList n p).getD j 0), hr⟩
      = (keptList n p).get ⟨j, hj⟩ := by
    rw [List.get_eq_getElem, List.get_eq_getElem,
      ← List.getD_eq_getElem _ 0 hr, ← List.getD_eq_getElem _ 0 hj]
    exact keptList_getD_rankP hip hin
  exact congrArg Fin.val ((keptList_nodup n p).get_inj_iff.mp h3)

theorem keptList_split {p : Nat → Bool} {K n : Nat}
    (hK : ∀ i < K, p i = true) (hKn : K ≤ n) :
    ∃ tail, keptList n p = List.range K ++ tail ∧ ∀ i ∈ tail, K ≤ i := by
  have hrange : List.range n = List.range K ++ (List.range (n - K)).map (K + ·) := by
    conv_lhs => rw [← Nat.add_sub_cancel' hKn]
    exact List.range_add K (n - K)
  rw [keptList, hrange, List.filter_append]
  have hfK : List.filter p (List.range K) = List.range K :=
    List.filter_eq_self.mpr fun i hi => hK i (List.mem_range.mp hi)
  rw [hfK]
  refine ⟨_, rfl, ?_⟩
  intro i hi
  rcases List.mem_map.mp (List.mem_filter.mp hi).1 with ⟨j, _, rfl⟩
  omega

theorem rankP_eq_self {p : Nat → Bool} {K i : Nat}
    (hK : ∀ j < K, p j = true) (hiK : i ≤ K) : rankP p i = i := by
  rw [rankP, List.filter_eq_self.mpr fun j hj => hK j (by
    have := List.mem_range.mp hj; omega)]
  exact List.length_range i

theorem range_map_getD {α : Type} (d : α) (l : List α) :
    (List.range l.length).map (fun i => l.getD i d) = l := by
  induction l with
  | nil => rfl
  | cons x xs ih =>
    rw [List.length_cons, List.range_succ_eq_map, List.map_cons, List.map_map]
    have hpt : ∀ i ∈ List.range xs.length,
        ((fun i => (x :: xs).getD i d) ∘ Nat.succ) i = (fun i => xs.getD i d) i := by
      intro i _
      simp [Function.comp, List.getD_cons_succ]
    rw [List.map_congr_left hpt, ih, List.getD_cons_zero]

theorem keptList_map_getD_sublist {α : Type} (d : α) (p : Nat → Bool) (l : List α) :
    (((keptList l.length p).map fun i => l.getD i d)).Sublist l := by
  induction l generalizing p with
  | nil => simp [keptList]
  | cons x xs ih =>
    rw [keptList, List.length_cons, List.range_succ_eq_map, List.filter_cons]
    have hsub : ((List.filter p (List.map Nat.succ (List.range xs.length))).map
        fun i => (x :: xs).getD i d).Sublist xs := by
      rw [List.filter_map, List.map_map]
      have hpt : ∀ i ∈ List.filter (p ∘ Nat.succ) (List.range xs.length),
          ((fun i => (x :: xs).getD i d) ∘ Nat.succ) i = (fun i => xs.getD i d) i := by
        intro i _
        simp [Function.comp, List.getD_cons_succ]
      rw [List.map_congr_left hpt]
      exact ih (p ∘ Nat.succ)
    rcases Bool.eq_false_or_eq_true (p 0) with hp | hp
    · rw [hp, if_pos rfl, List.map_cons, List.getD_cons_zero]
      exact hsub.cons₂ x
    · rw [hp, if_neg (by simp)]
      exact hsub.cons x

/-! ## Library: the merge step -/

theorem faceInRange_mono {n n2 : Nat} {f : Face} (h : faceInRange n f) (hn : n ≤ n2) :
    faceInRange n2 f :=
  ⟨lt_of_lt_of_le h.1 hn, lt_of_lt_of_le h.2.1 hn, lt_of_lt_of_le h.2.2 hn⟩

theorem faceInRange_mk {n x y z : Nat} (hx : x < n) (hy : y < n) (hz : z < n) :
    faceInRange n ⟨x, y, z⟩ := ⟨hx, hy, hz⟩

theorem map_eq_self_of {α : Type} {l : List α} {f : α → α} (h : ∀ x ∈ l, f x = x) :
    l.map f = l := by
  conv_rhs => rw [← List.map_id l]
  exact List.map_congr_left h

theorem keys_ne_of_nodup {vs : List Pt} (hk : (vs.map keyOf).Nodup) {j i : Nat}
    (hji : j < i) (hi : i < vs.length) :
    keyOf (vs.getD j Pt.zero) ≠ keyOf (vs.getD i Pt.zero) := by
  intro hcontra
  have hj : j < vs.length := lt_trans hji hi
  have hj2 : j < (vs.map keyOf).length := by rw [List.length_map]; omega
  have hi2 : i < (vs.map keyOf).length := by rw [List.length_map]; omega
  have heq : (vs.map keyOf).get ⟨j, hj2⟩ = (vs.map keyOf).get ⟨i, hi2⟩ := by
    rw [List.get_eq_getElem, List.get_eq_getElem, List.getElem_map, List.getElem_map,
      ← List.getD_eq_getElem _ Pt.zero hj, ← List.getD_eq_getElem _ Pt.zero hi]
    exact hcontra
  have h5 : j = i := congrArg Fin.val (hk.get_inj_iff.mp heq)
  omega

theorem mergeRemap_eq_self {vs : List Pt} (hk : (vs.map keyOf).Nodup) {i : Nat}
    (hi : i < vs.length) : mergeRemap vs i = i := by
  rw [mergeRemap, dedupBy_eq_self_of_nodup hk]
  apply findIdx_eq_of_first _ Pt.zero vs i hi
  · intro j hj
    rw [decide_eq_false_iff_not]
    exact keys_ne_of_nodup hk hj hi
  · simp

theorem mergeRemap_append_eq {vs : List Pt} (app : List Pt) (hk : (vs.map keyOf).Nodup)
    {i : Nat} (hi : i < vs.length) : mergeRemap (vs ++ app) i = i := by
  rcases dedupBy_append_of_nodup keyOf vs app hk with ⟨a, ha, _⟩
  rw [mergeRemap, ha, List.getD_append _ _ _ _ hi]
  have hlen : i < (vs ++ a).length := by rw [List.length_append]; omega
  apply findIdx_eq_of_first _ Pt.zero (vs ++ a) i hlen
  · intro j hj
    have hj' : j < vs.length := lt_trans hj hi
    rw [List.getD_append _ _ _ _ hj', decide_eq_false_iff_not]
    exact keys_ne_of_nodup hk hj hi
  · rw [List.getD_append _ _ _ _ hi]
    simp

theorem mergeVertices_append (vs app : List Pt) (fs newf : List Face)
    (hk : (vs.map keyOf).Nodup) (hv : ∀ f ∈ fs, faceInRange vs.length f) :
    ∃ a, mergeVertices ⟨vs ++ app, fs ++ newf⟩ =
        ⟨vs ++ a, fs ++ newf.map (remapFaceBy (mergeRemap (vs ++ app)))⟩ ∧
      a.Sublist app := by
  rcases dedupBy_append_of_nodup keyOf vs app hk with ⟨a, ha, hsub⟩
  refine ⟨a, ?_, hsub⟩
  simp only [mergeVertices, Mesh.mk.injEq]
  refine ⟨ha, ?_⟩
  rw [List.map_append]
  congr 1
  · apply map_eq_self_of
    intro f hf
    rcases hv f hf with ⟨h1, h2, h3⟩
    rcases f with ⟨fa, fb, fc⟩
    simp only [remapFaceBy]
    rw [mergeRemap_append_eq app hk h1, mergeRemap_append_eq app hk h2,
      mergeRemap_append_eq app hk h3]

theorem mergeVertices_eq_self {m : Mesh} (hk : (m.vertices.map keyOf).Nodup)
    (hv : m.validFaces) : mergeVertices m = m := by
  rcases m with ⟨vs, fs⟩
  rw [mergeVertices]
  congr 1
  · exact dedupBy_eq_self_of_nodup hk
  · apply map_eq_self_of
    intro f hf
    rcases hv f hf with ⟨h1, h2, h3⟩
    rcases f with ⟨fa, fb, fc⟩
    simp only [remapFaceBy]
    rw [mergeRemap_eq_self hk h1, mergeRemap_eq_self hk h2, mergeRemap_eq_self hk h3]

theorem mergeRemap_lt {vs : List Pt} {i : Nat} (hi : i < vs.length) :
    mergeRemap vs i < (dedupBy keyOf vs).length := by
  apply findIdx_lt_length_of_exists
  have hmem : keyOf (vs.getD i Pt.zero) ∈ vs.map keyOf := by
    refine List.mem_map.mpr ⟨vs.getD i Pt.zero, ?_, rfl⟩
    rw [List.getD_eq_getElem _ _ hi]
    exact List.getElem_mem hi
  rcases List.mem_map.mp (key_mem_map_dedupBy keyOf vs hmem) with ⟨q, hq, hqk⟩
  exact ⟨q, hq, by simp [hqk]⟩

theorem mergeVertices_keys_nodup (m : Mesh) :
    ((mergeVertices m).vertices.map keyOf).Nodup :=
  map_key_dedupBy_nodup keyOf m.vertices

theorem mergeVertices_valid {m : Mesh} (hv : m.validFaces) :
    (mergeVertices m).validFaces := by
  intro f' hf'
  rcases List.mem_map.mp hf' with ⟨f, hf, rfl⟩
  rcases hv f hf with ⟨h1, h2, h3⟩
  exact ⟨mergeRemap_lt h1, mergeRemap_lt h2, mergeRemap_lt h3⟩

/-! ## Library: the face-filtering and pruning steps -/

theorem faceDegenerate_append (vs app : List Pt) {f : Face}
    (hv : faceInRange vs.length f) :
    faceDegenerate (vs ++ app) f = faceDegenerate vs f := by
  rw [faceDegenerate, faceDegenerate, faceCross, faceCross,
    List.getD_append _ _ _ _ hv.1, List.getD_append _ _ _ _ hv.2.1,
    List.getD_append _ _ _ _ hv.2.2]

theorem removeDegenerateFaces_append (w : List Pt) (fs g : List Face)
    (hnd : ∀ f ∈ fs, faceDegenerate w f = false) :
    removeDegenerateFaces ⟨w, fs ++ g⟩ =
      ⟨w, fs ++ g.filter fun f => !faceDegenerate w f⟩ := by
  simp only [removeDegenerateFaces, Mesh.mk.injEq, true_and]
  rw [List.filter_append]
  congr 1
  apply List.filter_eq_self.mpr
  intro f hf
  rw [hnd f hf]
  rfl

theorem removeDuplicateFaces_append (w : List Pt) (fs g : List Face)
    (hnd : (fs.map faceKey).Nodup) :
    ∃ g2, removeDuplicateFaces ⟨w, fs ++ g⟩ = ⟨w, fs ++ g2⟩ ∧ g2.Sublist g := by
  rcases dedupBy_append_of_nodup faceKey fs g hnd with ⟨g2, hg, hsub⟩
  exact ⟨g2, by simp only [removeDuplicateFaces, Mesh.mk.injEq, true_and]; exact hg, hsub⟩

theorem referencedIdx_append_left {fs : List Face} (g : List Face) {i : Nat}
    (h : referencedIdx fs i = true) : referencedIdx (fs ++ g) i = true := by
  rw [referencedIdx, List.any_eq_true] at h ⊢
  rcases h with ⟨f, hf, hp⟩
  exact ⟨f, List.mem_append_left g hf, hp⟩

theorem removeUnreferencedVertices_append (vs app : List Pt) (fs g : List Face)
    (href : ∀ i < vs.length, referencedIdx (fs ++ g) i = true)
    (hv : ∀ f ∈ fs, faceInRange vs.length f) :
    ∃ a2 g2, removeUnreferencedVertices ⟨vs ++ app, fs ++ g⟩ = ⟨vs ++ a2, fs ++ g2⟩ := by
  have hlen : vs.length ≤ (vs ++ app).length := by
    rw [List.length_append]; omega
  rcases keptList_split href hlen with ⟨tail, hkept, _⟩
  refine ⟨tail.map fun i => (vs ++ app).getD i Pt.zero,
    g.map (remapFaceBy (rankIdx (fs ++ g))), ?_⟩
  simp only [removeUnreferencedVertices, Mesh.mk.injEq]
  constructor
  · show (keptList (vs ++ app).length (referencedIdx (fs ++ g))).map _ = _
    rw [hkept, List.map_append]
    congr 1
    have hpt : ∀ i ∈ List.range vs.length,
        (vs ++ app).getD i Pt.zero = vs.getD i Pt.zero := fun i hi =>
      List.getD_append _ _ _ _ (List.mem_range.mp hi)
    rw [List.map_congr_left hpt, range_map_getD]
  · rw [List.map_append]
    congr 1
    apply map_eq_self_of
    intro f hf
    rcases hv f hf with ⟨h1, h2, h3⟩
    rcases f with ⟨fa, fb, fc⟩
    simp only [remapFaceBy]
    rw [rankIdx_eq_rankP, rankIdx_eq_rankP, rankIdx_eq_rankP,
      rankP_eq_self href (le_of_lt h1), rankP_eq_self href (le_of_lt h2),
      rankP_eq_self href (le_of_lt h3)]

/-! ## The repair sequence: prefix preservation and fixpoint -/

/-- On a mesh already in repaired form, appending any vertices and faces and
then repairing leaves the original vertices and faces in place as a prefix:
repair can only discard or merge among the appended part. -/
theorem repairMesh_append_of_repaired {vs : List Pt} {fs : List Face}
    (hR : Repaired ⟨vs, fs⟩) (app : List Pt) (newf : List Face) :
    ∃ a b, repairMesh ⟨vs ++ app, fs ++ newf⟩ = ⟨vs ++ a, fs ++ b⟩ := by
  obtain ⟨hk, hnd, hdup, href, hv⟩ := hR
  rw [repairMesh]
  rcases mergeVertices_append vs app fs newf hk hv with ⟨a1, hm, _⟩
  rw [hm]
  have hnd1 : ∀ f ∈ fs, faceDegenerate (vs ++ a1) f = false := by
    intro f hf
    rw [faceDegenerate_append vs a1 (hv f hf)]
    exact hnd f hf
  rw [removeDegenerateFaces_append _ _ _ hnd1]
  rcases removeDuplicateFaces_append (vs ++ a1) fs _ hdup with ⟨g2, hd2, _⟩
  rw [hd2]
  have href2 : ∀ i < vs.length, referencedIdx (fs ++ g2) i = true := fun i hi =>
    referencedIdx_append_left g2 (href i hi)
  rcases removeUnreferencedVertices_append vs a1 fs g2 href2 hv with ⟨a2, g3, hu⟩
  rw [hu]
  exact ⟨a2, g3, rfl⟩

/-- A repaired mesh is a fixpoint of the repair sequence. -/
theorem repairMesh_eq_self_of_repaired {m : Mesh} (hR : Repaired m) :
    repairMesh m = m := by
  rcases m with ⟨vs, fs⟩
  obtain ⟨hk, hnd, hdup, href, hv⟩ := hR
  rw [repairMesh, mergeVertices_eq_self hk hv]
  have h2 : removeDegenerateFaces ⟨vs, fs⟩ = ⟨vs, fs⟩ := by
    simp only [removeDegenerateFaces, Mesh.mk.injEq, true_and]
    apply List.filter_eq_self.mpr
    intro f hf
    rw [hnd f hf]
    rfl
  rw [h2]
  have h3 : removeDuplicateFaces ⟨vs, fs⟩ = ⟨vs, fs⟩ := by
    simp only [removeDuplicateFaces, Mesh.mk.injEq, true_and]
    exact dedupBy_eq_self_of_nodup hdup
  rw [h3]
  simp only [removeUnreferencedVertices, Mesh.mk.injEq]
  constructor
  · show (keptList vs.length (referencedIdx fs)).map _ = _
    have hkept : keptList vs.length (referencedIdx fs) = List.range vs.length := by
      rw [keptList]
      exact List.filter_eq_self.mpr fun i hi => href i (List.mem_range.mp hi)
    rw [hkept, range_map_getD]
  · apply map_eq_self_of
    intro f hf
    rcases hv f hf with ⟨h1, h2, h3⟩
    rcases f with ⟨fa, fb, fc⟩
    simp only [remapFaceBy]
    rw [rankIdx_eq_rankP, rankIdx_eq_rankP, rankIdx_eq_rankP,
      rankP_eq_self href (le_of_lt h1), rankP_eq_self href (le_of_lt h2),
      rankP_eq_self href (le_of_lt h3)]

/-! ## Library: repairing a valid mesh yields a repaired mesh -/

theorem face_refs_self {fs : List Face} {f : Face} (hf : f ∈ fs) :
    referencedIdx fs f.a = true ∧ referencedIdx fs f.b = true ∧
      referencedIdx fs f.c = true := by
  refine ⟨?_, ?_, ?_⟩ <;>
  · rw [referencedIdx, List.any_eq_true]
    exact ⟨f, hf, by simp⟩

theorem rankP_inj_on {p : Nat → Bool} {i j : Nat} (hi : p i = true) (hj : p j = true)
    (h : rankP p i = rankP p j) : i = j := by
  rcases Nat.lt_trichotomy i j with hlt | heq | hgt
  · exact absurd h (Nat.ne_of_lt (rankP_lt_of_true hi hlt))
  · exact heq
  · exact absurd h.symm (Nat.ne_of_lt (rankP_lt_of_true hj hgt))

theorem removeUnref_getD_rank (vs : List Pt) (fs : List Face) {i : Nat}
    (hp : referencedIdx fs i = true) (hi : i < vs.length) :
    ((keptList vs.length (referencedIdx fs)).map fun j => vs.getD j Pt.zero).getD
        (rankP (referencedIdx fs) i) Pt.zero = vs.getD i Pt.zero := by
  have hr : rankP (referencedIdx fs) i
      < (keptList vs.length (referencedIdx fs)).length := rankP_lt_length hp hi
  have hr2 : rankP (referencedIdx fs) i
      < ((keptList vs.length (referencedIdx fs)).map fun j => vs.getD j Pt.zero).length := by
    rw [List.length_map]; exact hr
  rw [List.getD_eq_getElem _ _ hr2, List.getElem_map,
    ← List.getD_eq_getElem _ 0 hr, keptList_getD_rankP hp hi]

theorem rankIdx_monotone (fs : List Face) : Monotone (rankIdx fs) := by
  intro i j h
  rw [rankIdx_eq_rankP, rankIdx_eq_rankP]
  exact rankP_mono _ h

theorem faceKey_remapFaceBy_monotone {r : Nat → Nat} (hr : Monotone r) (f : Face) :
    faceKey (remapFaceBy r f) = mapTriple r (faceKey f) := by
  rcases f with ⟨fa, fb, fc⟩
  simp only [faceKey, remapFaceBy, mapTriple, med3]
  refine Prod.ext ?_ (Prod.ext ?_ ?_)
  · simp only []
    rw [hr.map_min, hr.map_min]
  · simp only []
    rw [hr.map_max, hr.map_min, hr.map_min, hr.map_max]
  · simp only []
    rw [hr.map_max, hr.map_max]

theorem min_mem3 (a b c : Nat) : min a (min b c) = a ∨ min a (min b c) = b ∨
    min a (min b c) = c := by omega

theorem med3_mem (a b c : Nat) : med3 a b c = a ∨ med3 a b c = b ∨ med3 a b c = c := by
  unfold med3; omega

theorem max_mem3 (a b c : Nat) : max a (max b c) = a ∨ max a (max b c) = b ∨
    max a (max b c) = c := by omega

theorem faceKey_comp_referenced {fs : List Face} {f : Face} (hf : f ∈ fs) :
    referencedIdx fs (faceKey f).1 = true ∧ referencedIdx fs (faceKey f).2.1 = true ∧
      referencedIdx fs (faceKey f).2.2 = true := by
  rcases face_refs_self hf with ⟨ra, rb, rc⟩
  rcases f with ⟨fa, fb, fc⟩
  simp only [faceKey]
  refine ⟨?_, ?_, ?_⟩
  · rcases min_mem3 fa fb fc with h | h | h <;> rw [h] <;> assumption
  · rcases med3_mem fa fb fc with h | h | h <;> rw [h] <;> assumption
  · rcases max_mem3 fa fb fc with h | h | h <;> rw [h] <;> assumption

theorem removeUnref_keys_nodup {m : Mesh} (hk : (m.vertices.map keyOf).Nodup) :
    ((removeUnreferencedVertices m).vertices.map keyOf).Nodup := by
  have hsub : ((removeUnreferencedVertices m).vertices).Sublist m.vertices :=
    keptList_map_getD_sublist Pt.zero (referencedIdx m.faces) m.vertices
  exact (hsub.map keyOf).nodup hk

theorem removeUnref_face_degen {m : Mesh} (hv : m.validFaces) {f : Face}
    (hf : f ∈ m.faces) :
    faceDegenerate (removeUnreferencedVertices m).vertices
        (remapFaceBy (rankIdx m.faces) f) = faceDegenerate m.vertices f := by
  rcases hv f hf with ⟨h1, h2, h3⟩
  rcases face_refs_self hf with ⟨r1, r2, r3⟩
  rcases f with ⟨fa, fb, fc⟩
  have p1 : (removeUnreferencedVertices m).vertices.getD (rankIdx m.faces fa) Pt.zero
      = m.vertices.getD fa Pt.zero := by
    rw [rankIdx_eq_rankP]
    exact removeUnref_getD_rank m.vertices m.faces r1 h1
  have p2 : (removeUnreferencedVertices m).vertices.getD (rankIdx m.faces fb) Pt.zero
      = m.vertices.getD fb Pt.zero := by
    rw [rankIdx_eq_rankP]
    exact removeUnref_getD_rank m.vertices m.faces r2 h2
  have p3 : (removeUnreferencedVertices m).vertices.getD (rankIdx m.faces fc) Pt.zero
      = m.vertices.getD fc Pt.zero := by
    rw [rankIdx_eq_rankP]
    exact removeUnref_getD_rank m.vertices m.faces r3 h3
  have e1 : decide (rankIdx m.faces fa = rankIdx m.faces fb) = decide (fa = fb) := by
    rw [decide_eq_decide, rankIdx_eq_rankP, rankIdx_eq_rankP]
    exact ⟨fun h => rankP_inj_on r1 r2 h, fun h => by rw [h]⟩
  have e2 : decide (rankIdx m.faces fb = rankIdx m.faces fc) = decide (fb = fc) := by
    rw [decide_eq_decide, rankIdx_eq_rankP, rankIdx_eq_rankP]
    exact ⟨fun h => rankP_inj_on r2 r3 h, fun h => by rw [h]⟩
  have e3 : decide (rankIdx m.faces fa = rankIdx m.faces fc) = decide (fa = fc) := by
    rw [decide_eq_decide, rankIdx_eq_rankP, rankIdx_eq_rankP]
    exact ⟨fun h => rankP_inj_on r1 r3 h, fun h => by rw [h]⟩
  have hcross : faceCross (removeUnreferencedVertices m).vertices
      ⟨rankIdx m.faces fa, rankIdx m.faces fb, rankIdx m.faces fc⟩
      = faceCross m.vertices ⟨fa, fb, fc⟩ := by
    rw [faceCross, faceCross]
    exact p1 ▸ p2 ▸ p3 ▸ rfl
  have e4 : decide (faceCross (removeUnreferencedVertices m).vertices
        ⟨rankIdx m.faces fa, rankIdx m.faces fb, rankIdx m.faces fc⟩ = Pt.zero)
      = decide (faceCross m.vertices ⟨fa, fb, fc⟩ = Pt.zero) := by
    rw [decide_eq_decide, hcross]
  show (decide (rankIdx m.faces fa = rankIdx m.faces fb) ||
      decide (rankIdx m.faces fb = rankIdx m.faces fc) ||
      decide (rankIdx m.faces fa = rankIdx m.faces fc) ||
      decide (faceCross (removeUnreferencedVertices m).vertices
        ⟨rankIdx m.faces fa, rankIdx m.faces fb, rankIdx m.faces fc⟩ = Pt.zero)) =
    (decide (fa = fb) || decide (fb = fc) || decide (fa = fc) ||
      decide (faceCross m.vertices ⟨fa, fb, fc⟩ = Pt.zero))
  rw [e1, e2, e3, e4]

theorem removeUnref_faceKeys_nodup {m : Mesh} (hdup : (m.faces.map faceKey).Nodup) :
    ((removeUnreferencedVertices m).faces.map faceKey).Nodup := by
  have hcomp : (removeUnreferencedVertices m).faces.map faceKey
      = (m.faces.map faceKey).map (mapTriple (rankIdx m.faces)) := by
    show (m.faces.map (remapFaceBy (rankIdx m.faces))).map faceKey = _
    rw [List.map_map, List.map_map]
    apply List.map_congr_left
    intro f _
    exact faceKey_remapFaceBy_monotone (rankIdx_monotone m.faces) f
  rw [hcomp]
  refine List.Nodup.map_on ?_ hdup
  intro k1 hk1 k2 hk2 heq
  rcases List.mem_map.mp hk1 with ⟨f, hfmem, rfl⟩
  rcases List.mem_map.mp hk2 with ⟨g, hgmem, rfl⟩
  rcases faceKey_comp_referenced hfmem with ⟨f1, f2, f3⟩
  rcases faceKey_comp_referenced hgmem with ⟨g1, g2, g3⟩
  simp only [mapTriple, Prod.mk.injEq] at heq
  rcases heq with ⟨q1, q2, q3⟩
  rw [rankIdx_eq_rankP, rankIdx_eq_rankP] at q1 q2 q3
  refine Prod.ext ?_ (Prod.ext ?_ ?_)
  · exact rankP_inj_on f1 g1 q1
  · exact rankP_inj_on f2 g2 q2
  · exact rankP_inj_on f3 g3 q3

theorem removeUnref_all_referenced {m : Mesh} :
    ∀ j < (removeUnreferencedVertices m).vertices.length,
      referencedIdx (removeUnreferencedVertices m).faces j = true := by
  intro j hj
  have hj' : j < (keptList m.vertices.length (referencedIdx m.faces)).length := by
    have : (removeUnreferencedVertices m).vertices.length
        = (keptList m.vertices.length (referencedIdx m.faces)).length := by
      show (List.map _ _).length = _
      rw [List.length_map]
      rfl
    rw [this] at hj
    exact hj
  rcases keptList_surj hj' with ⟨i, hip, hin, hrank, _⟩
  rw [referencedIdx, List.any_eq_true] at hip
  rcases hip with ⟨f, hf, hcomp⟩
  rw [referencedIdx, List.any_eq_true]
  refine ⟨remapFaceBy (rankIdx m.faces) f, List.mem_map.mpr ⟨f, hf, rfl⟩, ?_⟩
  rcases f with ⟨fa, fb, fc⟩
  simp only [remapFaceBy, Bool.or_eq_true, decide_eq_true_eq] at hcomp ⊢
  rcases hcomp with (h | h) | h
  · exact Or.inl (Or.inl (by rw [h, rankIdx_eq_rankP, hrank]))
  · exact Or.inl (Or.inr (by rw [h, rankIdx_eq_rankP, hrank]))
  · exact Or.inr (by rw [h, rankIdx_eq_rankP, hrank])

theorem removeUnref_valid {m : Mesh} (hv : m.validFaces) :
    (removeUnreferencedVertices m).validFaces := by
  intro f' hf'
  rcases List.mem_map.mp hf' with ⟨f, hf, rfl⟩
  rcases hv f hf with ⟨h1, h2, h3⟩
  rcases face_refs_self hf with ⟨r1, r2, r3⟩
  have hlen : (removeUnreferencedVertices m).vertices.length
      = (keptList m.vertices.length (referencedIdx m.faces)).length := by
    show (List.map _ _).length = _
    rw [List.length_map]
    rfl
  rcases f with ⟨fa, fb, fc⟩
  refine ⟨?_, ?_, ?_⟩ <;> show rankIdx _ _ < _ <;> rw [hlen, rankIdx_eq_rankP]
  · exact rankP_lt_length r1 h1
  · exact rankP_lt_length r2 h2
  · exact rankP_lt_length r3 h3

/-- Repairing any mesh with in-range face indices produces a mesh in repaired
form. -/
theorem repaired_repairMesh {m : Mesh} (hv : m.validFaces) :
    Repaired (repairMesh m) := by
  rw [repairMesh]
  have h1k := mergeVertices_keys_nodup m
  have h1v := mergeVertices_valid hv
  set m1 := mergeVertices m with hm1
  have h2k : ((removeDegenerateFaces m1).vertices.map keyOf).Nodup := h1k
  have h2v : (removeDegenerateFaces m1).validFaces := by
    intro f hf
    exact h1v f (List.mem_of_mem_filter hf)
  have h2d : ∀ f ∈ (removeDegenerateFaces m1).faces,
      faceDegenerate (removeDegenerateFaces m1).vertices f = false := by
    intro f hf
    have := (List.mem_filter.mp hf).2
    simpa using this
  set m2 := removeDegenerateFaces m1 with hm2
  have h3k : ((removeDuplicateFaces m2).vertices.map keyOf).Nodup := h2k
  have h3v : (removeDuplicateFaces m2).validFaces := by
    intro f hf
    exact h2v f (mem_of_mem_dedupBy hf)
  have h3d : ∀ f ∈ (removeDuplicateFaces m2).faces,
      faceDegenerate (removeDuplicateFaces m2).vertices f = false := by
    intro f hf
    exact h2d f (mem_of_mem_dedupBy hf)
  have h3dup : ((removeDuplicateFaces m2).faces.map faceKey).Nodup :=
    map_key_dedupBy_nodup faceKey m2.faces
  set m3 := removeDuplicateFaces m2 with hm3
  refine ⟨removeUnref_keys_nodup h3k, ?_, removeUnref_faceKeys_nodup h3dup,
    removeUnref_all_referenced, removeUnref_valid h3v⟩
  intro f' hf'
  rcases List.mem_map.mp hf' with ⟨f, hf, rfl⟩
  rw [removeUnref_face_degen h3v hf]
  exact h3d f hf

/-! ## Library: miscellaneous helpers for the pipeline stages -/

theorem getD_map_of_lt {α β : Type} (f : α → β) (l : List α) (d : α) (e : β) {i : Nat}
    (hi : i < l.length) : (l.map f).getD i e = f (l.getD i d) := by
  have hi2 : i < (l.map f).length := by rw [List.length_map]; exact hi
  rw [List.getD_eq_getElem _ _ hi2, List.getElem_map, List.getD_eq_getElem _ _ hi]

theorem mem_arange2 {a b q : ℚ} (h : q ∈ arange2 a b) :
    (∃ k : Nat, q = a + 2 * k) ∧ a ≤ q ∧ q < b := by
  rw [arange2] at h
  rcases List.mem_map.mp h with ⟨k, hk, rfl⟩
  have hk' : (k : ℤ) < ⌈(b - a) / 2⌉ := by
    have h0 := List.mem_range.mp hk
    omega
  have hk0 : (0 : ℚ) ≤ (k : ℚ) := Nat.cast_nonneg k
  refine ⟨⟨k, rfl⟩, by linarith, ?_⟩
  have h1 : ((k : ℚ) + 1) ≤ ((⌈(b - a) / 2⌉ : ℤ) : ℚ) := by exact_mod_cast hk'
  have h2 : ((⌈(b - a) / 2⌉ : ℤ) : ℚ) < (b - a) / 2 + 1 := Int.ceil_lt_add_one _
  linarith

theorem length_flatMap_const {α : Type} (l : List Nat) (h : Nat → List α) (c : Nat)
    (hc : ∀ k ∈ l, (h k).length = c) : (l.flatMap h).length = c * l.length := by
  induction l with
  | nil => simp
  | cons x xs ih =>
    rw [List.flatMap_cons, List.length_append, hc x (List.mem_cons_self x xs),
      ih fun k hk => hc k (List.mem_cons_of_mem x hk), List.length_cons]
    ring

theorem flatMap_congr_mem {α : Type} {l : List Nat} {f g : Nat → List α}
    (h : ∀ x ∈ l, f x = g x) : l.flatMap f = l.flatMap g := by
  induction l with
  | nil => rfl
  | cons x xs ih =>
    rw [List.flatMap_cons, List.flatMap_cons, h x (List.mem_cons_self x xs),
      ih fun k hk => h k (List.mem_cons_of_mem x hk)]

theorem flatMap_append_perm {α : Type} (f g : Nat → List α) (l : List Nat) :
    (l.flatMap fun i => f i ++ g i).Perm (l.flatMap f ++ l.flatMap g) := by
  induction l with
  | nil => simp
  | cons x xs ih =>
    rw [List.flatMap_cons, List.flatMap_cons, List.flatMap_cons]
    have h1 : ((f x ++ g x) ++ xs.flatMap fun i => f i ++ g i).Perm
        ((f x ++ g x) ++ (xs.flatMap f ++ xs.flatMap g)) := ih.append_left _
    refine h1.trans ?_
    simp only [List.append_assoc]
    refine List.Perm.append_left (f x) ?_
    rw [← List.append_assoc, ← List.append_assoc]
    exact List.perm_append_comm.append_right _

theorem flipFaces_length (flip : Nat → Bool) (i : Nat) (fs : List Face) :
    (flipFaces flip i fs).length = fs.length := by
  induction fs generalizing i with
  | nil => rfl
  | cons f fs ih => rw [flipFaces, List.length_cons, List.length_cons, ih]

theorem flipFaces_getD (flip : Nat → Bool) (fs : List Face) :
    ∀ (i j : Nat), j < fs.length →
      (flipFaces flip i fs).getD j ⟨0, 0, 0⟩ =
        if flip (i + j) then revFace (fs.getD j ⟨0, 0, 0⟩) else fs.getD j ⟨0, 0, 0⟩ := by
  induction fs with
  | nil => intro i j hj; simp at hj
  | cons f fs ih =>
    intro i j hj
    cases j with
    | zero => rw [flipFaces]; simp
    | succ j =>
      rw [flipFaces, List.getD_cons_succ, List.getD_cons_succ,
        ih (i + 1) j (by simpa using hj)]
      have : i + 1 + j = i + (j + 1) := by omega
      rw [this]

theorem mem_flipFaces {flip : Nat → Bool} {i : Nat} {fs : List Face} {f' : Face}
    (h : f' ∈ flipFaces flip i fs) : ∃ f ∈ fs, f' = f ∨ f' = revFace f := by
  induction fs generalizing i with
  | nil => simp [flipFaces] at h
  | cons f fs ih =>
    rw [flipFaces] at h
    rcases List.mem_cons.mp h with h | h
    · refine ⟨f, List.mem_cons_self f fs, ?_⟩
      by_cases hf : flip i
      · rw [hf] at h; simp at h; exact Or.inr h
      · rw [if_neg hf] at h; exact Or.inl h
    · rcases ih h with ⟨g, hg, hgf⟩
      exact ⟨g, List.mem_cons_of_mem f hg, hgf⟩

theorem revFace_inRange {n : Nat} {f : Face} (h : faceInRange n f) :
    faceInRange n (revFace f) := ⟨h.2.2, h.2.1, h.1⟩

theorem faceCross_revFace (vs : List Pt) (f : Face) :
    faceCross vs (revFace f) = ptNeg (faceCross vs f) := by
  rcases f with ⟨fa, fb, fc⟩
  simp only [faceCross, revFace, cross, ptSub, ptNeg, Pt.mk.injEq]
  refine ⟨by ring, by ring, by ring⟩

theorem faceKey_revFace (f : Face) : faceKey (revFace f) = faceKey f := by
  rcases f with ⟨fa, fb, fc⟩
  simp only [faceKey, revFace, med3, Pt.mk.injEq, Prod.mk.injEq]
  refine ⟨by omega, by omega, by omega⟩

theorem fixNormals_valid {flip : Nat → Bool} {m : Mesh} (hv : m.validFaces) :
    (fixNormals flip m).validFaces := by
  intro f' hf'
  rcases mem_flipFaces hf' with ⟨f, hf, hrel⟩
  rcases hrel with h | h <;> rw [h]
  · exact hv f hf
  · exact revFace_inRange (hv f hf)

theorem fanTri_inRange (pts : List (ℚ × ℚ)) : ∀ f ∈ fanTri pts, faceInRange pts.length f := by
  rcases pts with _ | ⟨p, _ | ⟨q, rest⟩⟩
  · intro f hf
    simp [fanTri] at hf
  · intro f hf
    simp [fanTri] at hf
  · intro f hf
    rw [fanTri] at hf
    rcases List.mem_map.mp hf with ⟨i, hi, rfl⟩
    have hi2 := List.mem_range.mp hi
    simp only [List.length_cons]
    exact faceInRange_mk (by omega) (by omega) (by omega)

theorem wallFaces_inRange {o n : Nat} (hn : 0 < n) :
    ∀ f ∈ wallFaces o n, faceInRange (o + 4 * n) f := by
  intro f hf
  rw [wallFaces] at hf
  rcases List.mem_flatMap.mp hf with ⟨i, hi, hfi⟩
  have hin : i < n := List.mem_range.mp hi
  have hni : (i + 1) % n < n := Nat.mod_lt _ hn
  rcases List.mem_append.mp hfi with h | h
  · simp only [outWallPair, List.mem_cons, List.not_mem_nil, or_false] at h
    rcases h with rfl | rfl <;> exact faceInRange_mk (by omega) (by omega) (by omega)
  · simp only [inWallPair, List.mem_cons, List.not_mem_nil, or_false] at h
    rcases h with rfl | rfl <;> exact faceInRange_mk (by omega) (by omega) (by omega)

/-! ## Case analysis of fill_battery_gap, wall bookkeeping, example meshes -/

theorem fillBatteryGap_empty_back (tri : List (ℚ × ℚ) → List Face) (m : Mesh)
    (h : backIdxFill m = []) : fillBatteryGap tri m = m := by
  rw [fillBatteryGap, if_pos h]

theorem fillAssembled_skip {tri : List (ℚ × ℚ) → List Face} {m : Mesh}
    (h : (uniquePointsFill m).length ≤ 3) : fillAssembled tri m = m := by
  rw [fillAssembled]
  by_cases h3 : newGridVertices m = []
  · rw [if_pos h3]
  · rw [if_neg h3, if_neg (by omega)]

theorem fillBatteryGap_main (tri : List (ℚ × ℚ) → List Face) (m : Mesh)
    (h1 : backIdxFill m ≠ []) (h3 : newGridVertices m ≠ [])
    (h4 : 3 < (uniquePointsFill m).length) :
    fillBatteryGap tri m = repairMesh
      ⟨m.vertices ++ uniquePointsFill m,
       m.faces ++ (tri ((uniquePointsFill m).map fun p => (p.x, p.y))).map
          (shiftFace m.vertices.length)⟩ := by
  rw [fillBatteryGap, if_neg h1, fillAssembled, if_neg h3, if_pos h4]

theorem wallFaces_shift (o n : Nat) : wallFaces o n = (wallFaces 0 n).map (shiftFace o) := by
  rw [wallFaces, wallFaces, List.map_flatMap]
  apply flatMap_congr_mem
  intro i _
  simp only [outWallPair, inWallPair, shiftFace, List.map_append, List.map_cons,
    List.map_nil, List.cons_append, List.nil_append, List.cons.injEq, Face.mk.injEq,
    and_true]
  omega

theorem wallRingVertices_length (g : Nat → ℚ × ℚ) (c : ℚ × ℚ) (r dep zmin : ℚ) :
    (wallRingVertices g c r dep zmin).length = 128 := by
  rw [wallRingVertices]
  refine Eq.trans (length_flatMap_const _ _ 2 fun k _ => rfl) ?_
  rfl

theorem wallVertices_length (g : Nat → ℚ × ℚ) (c : ℚ × ℚ) (oR iR dep zmin : ℚ) :
    (wallVertices g c oR iR dep zmin).length = 256 := by
  rw [wallVertices, List.length_append, wallRingVertices_length, wallRingVertices_length]

theorem wallFaces_length (o n : Nat) : (wallFaces o n).length = 4 * n := by
  rw [wallFaces]
  refine Eq.trans (length_flatMap_const _ _ 4 fun k _ => rfl) ?_
  rw [List.length_range]

/-! ## Claims -/

/-- C3: the spec says both `fill_battery_gap` and `add_magsafe_recess` select
back-surface vertices by `|z - z_min| < 0.5` (a fixed absolute 0.5 mm band).
`add_magsafe_recess` does (see `recessDisplace`), but `fill_battery_gap`
compares against `z_min + 0.5` (its own comment says "within 0.5mm of back").
On a mesh whose back plane sits at `z_min = 2`, the code selects the vertices
at `z = 2` and `z = 3` (threshold `2.5`), while the claimed rule selects only
the vertex at `z = 2`. -/
theorem claim3_fill_band_bug :
    backIdxFill exShift = [0, 1] ∧
    ((List.range exShift.vertices.length).filter fun i =>
        decide (|(exShift.vertices.getD i Pt.zero).z - zMin exShift.vertices| < 1/2))
      = [0] ∧
    backIdxFill exShift ≠
      ((List.range exShift.vertices.length).filter fun i =>
        decide (|(exShift.vertices.getD i Pt.zero).z - zMin exShift.vertices| < 1/2)) := by
  refine ⟨by with_unfolding_all rfl, by with_unfolding_all rfl,
    of_decide_eq_true (by with_unfolding_all rfl)⟩

/-- C4 counterexample: on a 10 mm × 10 mm back plate the 60%-scaled centered
rectangle computed by `find_battery_gap` is `[2,8] × [2,8]`, but
`fill_battery_gap` generates the grid point `(0,0)` outside it: the infill is
not restricted to the 60% footprint. -/
theorem claim4_counterexample :
    ¬ (∀ p ∈ newGridVertices exGrid,
        (gapSearchBounds exGrid).1.x ≤ p.x ∧ p.x ≤ (gapSearchBounds exGrid).2.x ∧
        (gapSearchBounds exGrid).1.y ≤ p.y ∧ p.y ≤ (gapSearchBounds exGrid).2.y) :=
  of_decide_eq_true (by with_unfolding_all rfl)

/-- C4 (amended): `fill_battery_gap` accepts no footprint argument; it derives
its rectangle as the full bounding box of the selected back vertices and
generates the 2 mm grid inside that full rectangle (at height `z_min`); the
60%-scaled centered rectangle exists only in the separate analyzer helper
`find_battery_gap` (`gapSearchBounds`), which `fill_battery_gap` never
consults. -/
theorem claim4_grid_in_full_bbox (m : Mesh) :
    ∀ p ∈ newGridVertices m,
      (∃ k : Nat, p.x = (fillBounds m).1 + 2 * k) ∧
      (∃ k : Nat, p.y = (fillBounds m).2.1 + 2 * k) ∧
      (fillBounds m).1 ≤ p.x ∧ p.x < (fillBounds m).2.2.1 ∧
      (fillBounds m).2.1 ≤ p.y ∧ p.y < (fillBounds m).2.2.2 ∧
      p.z = zMin m.vertices := by
  intro p hp
  simp only [newGridVertices] at hp
  rcases List.mem_flatMap.mp hp with ⟨x, hx, hpx⟩
  rcases List.mem_filterMap.mp hpx with ⟨y, hy, hyp⟩
  by_cases hc : (fillBounds m).1 ≤ x ∧ x ≤ (fillBounds m).2.2.1 ∧
      (fillBounds m).2.1 ≤ y ∧ y ≤ (fillBounds m).2.2.2
  · rw [if_pos hc] at hyp
    have hpeq : (⟨x, y, zMin m.vertices⟩ : Pt) = p := Option.some.inj hyp
    obtain ⟨⟨kx, hkx⟩, hx1, hx2⟩ := mem_arange2 hx
    obtain ⟨⟨ky, hky⟩, hy1, hy2⟩ := mem_arange2 hy
    rw [← hpeq]
    exact ⟨⟨kx, hkx⟩, ⟨ky, hky⟩, hx1, hx2, hy1, hy2, rfl⟩
  · rw [if_neg hc] at hyp
    simp at hyp

/-- C4 witness: the grid point `(0,0,0)` generated for `exGrid` satisfies the
amended bounds. -/
theorem claim4_witness :
    (⟨0, 0, 0⟩ : Pt) ∈ newGridVertices exGrid ∧
    ((∃ k : Nat, (⟨0, 0, 0⟩ : Pt).x = (fillBounds exGrid).1 + 2 * k) ∧
      (∃ k : Nat, (⟨0, 0, 0⟩ : Pt).y = (fillBounds exGrid).2.1 + 2 * k) ∧
      (fillBounds exGrid).1 ≤ (⟨0, 0, 0⟩ : Pt).x ∧
      (⟨0, 0, 0⟩ : Pt).x < (fillBounds exGrid).2.2.1 ∧
      (fillBounds exGrid).2.1 ≤ (⟨0, 0, 0⟩ : Pt).y ∧
      (⟨0, 0, 0⟩ : Pt).y < (fillBounds exGrid).2.2.2 ∧
      (⟨0, 0, 0⟩ : Pt).z = zMin exGrid.vertices) :=
  ⟨of_decide_eq_true (by with_unfolding_all rfl),
   claim4_grid_in_full_bbox exGrid ⟨0, 0, 0⟩ (of_decide_eq_true (by with_unfolding_all rfl))⟩

theorem shiftFace_inRange {n k : Nat} {f : Face} (h : faceInRange k f) :
    faceInRange (n + k) (shiftFace n f) := by
  rcases f with ⟨a0, b0, c0⟩
  rcases h with ⟨h1, h2, h3⟩
  exact faceInRange_mk (by omega) (by omega) (by omega)

theorem validFaces_append (vs app : List Pt) (fs g2 : List Face)
    (hv : ∀ f ∈ fs, faceInRange vs.length f)
    (hg : ∀ f ∈ g2, faceInRange (vs.length + app.length) f) :
    (Mesh.mk (vs ++ app) (fs ++ g2)).validFaces := by
  intro f hf
  show faceInRange (vs ++ app).length f
  rw [List.length_append]
  rcases List.mem_append.mp hf with h | h
  · exact faceInRange_mono (hv f h) (by omega)
  · exact hg f h

theorem recessDisplace_length (c : ℚ × ℚ) (oR iR dep zmin : ℚ) (vs : List Pt) :
    (recessDisplace c oR iR dep zmin vs).length = vs.length := by
  rw [recessDisplace, List.length_map]

theorem recessAssembled_valid {g : Nat → ℚ × ℚ} {oR iR dep : ℚ}
    {pos : Option (ℚ × ℚ)} {m : Mesh} (hm : m.validFaces) :
    (recessAssembled g oR iR dep pos m).validFaces := by
  simp only [recessAssembled]
  apply validFaces_append
  · intro f hf
    have := hm f hf
    refine faceInRange_mono this ?_
    rw [recessDisplace_length]
  · intro f hf
    have h1 := wallFaces_inRange (o := (recessDisplace (recessCenter pos m.vertices) oR iR
      dep (zMin m.vertices) m.vertices).length) (by decide : 0 < numSegments) f hf
    refine faceInRange_mono h1 ?_
    rw [wallVertices_length]
    have h2 : 4 * numSegments = 256 := rfl
    omega

theorem fillBatteryGap_valid {tri : List (ℚ × ℚ) → List Face} {m : Mesh}
    (hm : m.validFaces) (ht : ∀ pts, ∀ f ∈ tri pts, faceInRange pts.length f) :
    (fillBatteryGap tri m).validFaces := by
  by_cases h1 : backIdxFill m = []
  · rw [fillBatteryGap_empty_back tri m h1]
    exact hm
  rw [fillBatteryGap, if_neg h1]
  refine (repaired_repairMesh ?_).2.2.2.2
  rw [fillAssembled]
  by_cases h3 : newGridVertices m = []
  · rw [if_pos h3]
    exact hm
  rw [if_neg h3]
  by_cases h4 : 3 < (uniquePointsFill m).length
  · rw [if_pos h4]
    apply validFaces_append
    · exact hm
    · intro f hf
      rcases List.mem_map.mp hf with ⟨f0, hf0, rfl⟩
      have hr := ht _ f0 hf0
      rw [List.length_map] at hr
      exact shiftFace_inRange hr
  · rw [if_neg h4]
    exact hm

/-- C6 counterexample: the claim as stated fails.  In `exFrame` the vertices
`(5,5,10)` and `(5,5,10.001)` lie outside both the plane band and the
footprint rectangle, yet the repair pass of `fill_battery_gap` merges them
(0.01 mm rounding), deletes the now-degenerate face built on them, and prunes
the then-unreferenced vertex `(6,5,10)`: a vertex outside the footprint and
band is altered, and a pre-existing face entirely outside the band is missing
from the output (as an unordered set of vertex positions). -/
theorem claim6_counterexample :
    ¬ ((∀ v ∈ exFrame.vertices,
          (¬(|v.z - zMin exFrame.vertices| < zMin exFrame.vertices + 1/2) ∧
            (v.x < (fillBounds exFrame).1 ∨ (fillBounds exFrame).2.2.1 < v.x ∨
             v.y < (fillBounds exFrame).2.1 ∨ (fillBounds exFrame).2.2.2 < v.y)) →
          v ∈ (fillBatteryGap fanTri exFrame).vertices) ∧
        (∀ f ∈ exFrame.faces,
          (¬(|(exFrame.vertices.getD f.a Pt.zero).z - zMin exFrame.vertices| <
              zMin exFrame.vertices + 1/2) ∧
           ¬(|(exFrame.vertices.getD f.b Pt.zero).z - zMin exFrame.vertices| <
              zMin exFrame.vertices + 1/2) ∧
           ¬(|(exFrame.vertices.getD f.c Pt.zero).z - zMin exFrame.vertices| <
              zMin exFrame.vertices + 1/2)) →
          facePosKey exFrame f ∈ (fillBatteryGap fanTri exFrame).faces.map
            (facePosKey (fillBatteryGap fanTri exFrame)))) :=
  of_decide_eq_true (by with_unfolding_all rfl)

/-- C6 (amended): the frame guarantee holds for inputs already in repaired
form: if no two vertices of `m` share a rounding key, no face is degenerate
or duplicated and no vertex is unreferenced (with in-range indices), then
`fill_battery_gap` preserves every input vertex and every input face in
place — output vertices and faces extend the input's as a prefix, so in
particular no vertex outside the footprint and band is altered and every
pre-existing face outside the band survives.  On general inputs the repair
pass may merge near-coincident vertices and drop degenerate or duplicate
faces anywhere in the mesh (see the counterexample). -/
theorem claim6_fill_preserves_repaired (tri : List (ℚ × ℚ) → List Face) (m : Mesh)
    (hR : Repaired m) :
    ∃ a b, (fillBatteryGap tri m).vertices = m.vertices ++ a ∧
      (fillBatteryGap tri m).faces = m.faces ++ b := by
  by_cases h1 : backIdxFill m = []
  · rw [fillBatteryGap_empty_back tri m h1]
    exact ⟨[], [], (List.append_nil _).symm, (List.append_nil _).symm⟩
  by_cases h4 : 3 < (uniquePointsFill m).length
  case neg =>
    have hskip : fillAssembled tri m = m := fillAssembled_skip (by omega)
    rw [fillBatteryGap, if_neg h1, hskip, repairMesh_eq_self_of_repaired hR]
    exact ⟨[], [], (List.append_nil _).symm, (List.append_nil _).symm⟩
  by_cases h3 : newGridVertices m = []
  · have hskip : fillAssembled tri m = m := by rw [fillAssembled, if_pos h3]
    rw [fillBatteryGap, if_neg h1, hskip, repairMesh_eq_self_of_repaired hR]
    exact ⟨[], [], (List.append_nil _).symm, (List.append_nil _).symm⟩
  · rw [fillBatteryGap_main tri m h1 h3 h4]
    rcases m with ⟨vs, fs⟩
    rcases repairMesh_append_of_repaired hR (uniquePointsFill ⟨vs, fs⟩)
      ((tri ((uniquePointsFill ⟨vs, fs⟩).map fun p => (p.x, p.y))).map
        (shiftFace vs.length)) with ⟨a, b, heq⟩
    exact ⟨a, b, congrArg Mesh.vertices heq, congrArg Mesh.faces heq⟩

/-- C6 witness: a concrete repaired mesh, on which gap fill extends vertices
and faces as a prefix. -/
theorem claim6_witness :
    Repaired exRepaired ∧
    ∃ a b, (fillBatteryGap fanTri exRepaired).vertices = exRepaired.vertices ++ a ∧
      (fillBatteryGap fanTri exRepaired).faces = exRepaired.faces ++ b :=
  ⟨of_decide_eq_true (by with_unfolding_all rfl),
   claim6_fill_preserves_repaired fanTri exRepaired
     (of_decide_eq_true (by with_unfolding_all rfl))⟩

/-- C7: the repair sequence (merge vertices by rounding key, remove degenerate
faces, remove duplicate faces, remove unreferenced vertices) is idempotent:
on any mesh whose faces reference in-range vertex indices, applying it twice
returns exactly the mesh of applying it once (in particular the same vertex
and face counts). -/
theorem claim7_repair_idempotent (m : Mesh) (hv : m.validFaces) :
    repairMesh (repairMesh m) = repairMesh m :=
  repairMesh_eq_self_of_repaired (repaired_repairMesh hv)

/-- C7 witness: a concrete mesh with mergeable vertices and a collapsing
face. -/
theorem claim7_witness :
    exFrame.validFaces ∧ repairMesh (repairMesh exFrame) = repairMesh exFrame :=
  ⟨of_decide_eq_true (by with_unfolding_all rfl),
   claim7_repair_idempotent exFrame (of_decide_eq_true (by with_unfolding_all rfl))⟩

/-- C8: when back vertices were selected but at most 3 unique points remain
after the rounding deduplication, `fill_battery_gap` skips the triangulation
step entirely — no vertices or faces are appended, and the mesh goes into the
repair pass unchanged.  This is a silent recoverable no-op, not an error. -/
theorem claim8_skip_triangulation (tri : List (ℚ × ℚ) → List Face) (m : Mesh)
    (h1 : backIdxFill m ≠ []) (h2 : (uniquePointsFill m).length ≤ 3) :
    fillBatteryGap tri m = repairMesh m := by
  rw [fillBatteryGap, if_neg h1, fillAssembled_skip h2]

/-- C8 witness: a two-vertex back plate deduplicates to 2 unique points, so
the fill is the repair of the unchanged mesh. -/
theorem claim8_witness :
    backIdxFill exSkip ≠ [] ∧ (uniquePointsFill exSkip).length ≤ 3 ∧
      fillBatteryGap fanTri exSkip = repairMesh exSkip :=
  ⟨of_decide_eq_true (by with_unfolding_all rfl),
   of_decide_eq_true (by with_unfolding_all rfl),
   claim8_skip_triangulation fanTri exSkip
     (of_decide_eq_true (by with_unfolding_all rfl))
     (of_decide_eq_true (by with_unfolding_all rfl))⟩

theorem foldl_min_mem (xs : List ℚ) (x : ℚ) : xs.foldl min x ∈ x :: xs := by
  induction xs generalizing x with
  | nil => exact List.mem_cons_self x []
  | cons y ys ih =>
    rw [List.foldl_cons]
    rcases List.mem_cons.1 (ih (min x y)) with h2 | h2
    · rcases min_choice x y with h1 | h1
      · rw [h2, h1]; exact List.mem_cons_self _ _
      · rw [h2, h1]; exact List.mem_cons_of_mem _ (List.mem_cons_self _ _)
    · exact List.mem_cons_of_mem _ (List.mem_cons_of_mem _ h2)

theorem listMin_mem : ∀ l : List ℚ, l ≠ [] → listMin l ∈ l
  | [], h => absurd rfl h
  | x :: xs, _ => foldl_min_mem xs x

theorem backIdxRecess_ne_nil (m : Mesh) (h : m.vertices ≠ []) :
    backIdxRecess m ≠ [] := by
  have hz : zMin m.vertices ∈ m.vertices.map Pt.z :=
    listMin_mem _ fun hc => h (List.map_eq_nil_iff.1 hc)
  rcases List.mem_map.1 hz with ⟨v, hv, hvz⟩
  rcases List.mem_iff_getElem.1 hv with ⟨i, hi, hgi⟩
  refine List.ne_nil_of_mem (a := i) ?_
  rw [backIdxRecess]
  refine List.mem_filter.2 ⟨List.mem_range.2 hi, decide_eq_true ?_⟩
  rw [List.getD_eq_getElem _ _ hi, hgi, hvz, sub_self, abs_zero]
  norm_num

/-- C9, amended: the claim's premise (no vertex within the 0.5 mm back band)
is satisfiable only by the vertex-less mesh — on any mesh with a vertex the
band contains the vertex attaining `z_min` — and on the vertex-less mesh
`add_magsafe_recess` raises (`vertices[:, 2].min()` on an empty array) instead
of appending walls, so the fallible entry point returns `none` while on every
nonempty mesh it completes.  Independently of the band, the assembled
pre-repair mesh always appends exactly the 256 synthesized wall vertices and
256 wall faces, and every vertex outside the band is left unmoved by the
displacement. -/
theorem claim9_walls_and_error_path (b : Nat → Bool) (g : Nat → ℚ × ℚ)
    (oR iR dep : ℚ) (pos : Option (ℚ × ℚ)) (m : Mesh) :
    (m.vertices ≠ [] →
      backIdxRecess m ≠ [] ∧
      addMagsafeRecess? b g oR iR dep pos m
        = some (addMagsafeRecess b g oR iR dep pos m)) ∧
    (m.vertices = [] → addMagsafeRecess? b g oR iR dep pos m = none) ∧
    (recessAssembled g oR iR dep pos m).vertices
      = recessDisplace (recessCenter pos m.vertices) oR iR dep (zMin m.vertices)
          m.vertices ++
        wallVertices g (recessCenter pos m.vertices) oR iR dep (zMin m.vertices) ∧
    (recessAssembled g oR iR dep pos m).faces
      = m.faces ++ wallFaces m.vertices.length numSegments ∧
    (wallVertices g (recessCenter pos m.vertices) oR iR dep (zMin m.vertices)).length
      = 256 ∧
    (wallFaces m.vertices.length numSegments).length = 256 ∧
    ∀ i < m.vertices.length,
      ¬(|(m.vertices.getD i Pt.zero).z - zMin m.vertices| < 1/2) →
      (recessDisplace (recessCenter pos m.vertices) oR iR dep (zMin m.vertices)
          m.vertices).getD i Pt.zero = m.vertices.getD i Pt.zero := by
  refine ⟨fun hne => ⟨backIdxRecess_ne_nil m hne, ?_⟩, fun he => ?_, rfl, ?_,
    wallVertices_length _ _ _ _ _ _,
    by rw [wallFaces_length]; with_unfolding_all rfl, ?_⟩
  · rw [addMagsafeRecess?, if_neg hne]
  · rw [addMagsafeRecess?, if_pos he]
  · show m.faces ++ wallFaces (recessDisplace (recessCenter pos m.vertices) oR iR dep
        (zMin m.vertices) m.vertices).length numSegments
      = m.faces ++ wallFaces m.vertices.length numSegments
    rw [recessDisplace_length]
  · intro i hi hout
    have hmap : (recessDisplace (recessCenter pos m.vertices) oR iR dep (zMin m.vertices)
        m.vertices).getD i Pt.zero =
        (if |(m.vertices.getD i Pt.zero).z - zMin m.vertices| < 1/2 ∧
            iR ^ 2 < distSqXY (m.vertices.getD i Pt.zero) (recessCenter pos m.vertices) ∧
            distSqXY (m.vertices.getD i Pt.zero) (recessCenter pos m.vertices) ≤ oR ^ 2
          then ⟨(m.vertices.getD i Pt.zero).x, (m.vertices.getD i Pt.zero).y,
                (m.vertices.getD i Pt.zero).z + dep⟩
          else m.vertices.getD i Pt.zero) := by
      rw [recessDisplace]
      exact getD_map_of_lt _ _ Pt.zero Pt.zero hi
    rw [hmap, if_neg]
    rintro ⟨hband, -, -⟩
    exact hout hband

/-- C9 counterexample: the premise of the original claim (empty back band)
forces the vertex-less mesh, and there the program raises rather than adding
walls — the fallible entry point returns `none`, no walls are produced. -/
theorem claim9_counterexample :
    backIdxRecess ⟨[], []⟩ = [] ∧
    addMagsafeRecess? (fun _ => false) circleOne 28 (45/2) (5/2) none ⟨[], []⟩
      = none :=
  ⟨rfl, rfl⟩

/-- C9 witness: `exShift` has vertices, so its back band is nonempty and the
run completes with `some`; its vertex 2 at z = 10 lies 8 mm outside the band
and is left unmoved by the displacement; the wall face count is 256. -/
theorem claim9_witness :
    exShift.vertices ≠ [] ∧
    backIdxRecess exShift ≠ [] ∧
    addMagsafeRecess? (fun _ => false) circleOne 28 (45/2) (5/2) none exShift
      = some (addMagsafeRecess (fun _ => false) circleOne 28 (45/2) (5/2) none exShift) ∧
    ¬(|(exShift.vertices.getD 2 Pt.zero).z - zMin exShift.vertices| < 1/2) ∧
    (recessDisplace (recessCenter none exShift.vertices) 28 (45/2) (5/2)
        (zMin exShift.vertices) exShift.vertices).getD 2 Pt.zero
      = exShift.vertices.getD 2 Pt.zero ∧
    (wallFaces exShift.vertices.length numSegments).length = 256 := by
  have hne : exShift.vertices ≠ [] := of_decide_eq_true (by with_unfolding_all rfl)
  have hout : ¬(|(exShift.vertices.getD 2 Pt.zero).z - zMin exShift.vertices| < 1/2) :=
    of_decide_eq_true (by with_unfolding_all rfl)
  have h := claim9_walls_and_error_path (fun _ => false) circleOne 28 (45/2) (5/2)
    none exShift
  exact ⟨hne, (h.1 hne).1, (h.1 hne).2, hout,
    h.2.2.2.2.2.2 2 (by decide) hout, h.2.2.2.2.2.1⟩

/-- C2: in `add_magsafe_recess`, a back-surface vertex (|z − z_min| < 0.5) at
radial XY distance `d` from the recess center keeps its Z if `d ≤ inner`,
moves up by exactly `depth` if `inner < d ≤ outer`, and is untouched if
`d > outer` (radial comparisons are stated through the squared distance,
matching the code's `sqrt`-based tests for nonnegative radii). -/
theorem claim2_recess_displacement (m : Mesh) (oR iR dep : ℚ) (pos : Option (ℚ × ℚ))
    (i : Nat) (d : ℚ) (hi : i < m.vertices.length) (h1 : 0 ≤ oR) (h2 : 0 ≤ iR)
    (h3 : 0 ≤ d)
    (h4 : d ^ 2 = distSqXY (m.vertices.getD i Pt.zero) (recessCenter pos m.vertices))
    (h5 : |(m.vertices.getD i Pt.zero).z - zMin m.vertices| < 1/2) :
    (d ≤ iR →
      (recessDisplace (recessCenter pos m.vertices) oR iR dep (zMin m.vertices)
        m.vertices).getD i Pt.zero = m.vertices.getD i Pt.zero) ∧
    (iR < d → d ≤ oR →
      (recessDisplace (recessCenter pos m.vertices) oR iR dep (zMin m.vertices)
        m.vertices).getD i Pt.zero =
        ⟨(m.vertices.getD i Pt.zero).x, (m.vertices.getD i Pt.zero).y,
         (m.vertices.getD i Pt.zero).z + dep⟩) ∧
    (oR < d →
      (recessDisplace (recessCenter pos m.vertices) oR iR dep (zMin m.vertices)
        m.vertices).getD i Pt.zero = m.vertices.getD i Pt.zero) := by
  have hmap : (recessDisplace (recessCenter pos m.vertices) oR iR dep (zMin m.vertices)
      m.vertices).getD i Pt.zero =
      (if |(m.vertices.getD i Pt.zero).z - zMin m.vertices| < 1/2 ∧
          iR ^ 2 < distSqXY (m.vertices.getD i Pt.zero) (recessCenter pos m.vertices) ∧
          distSqXY (m.vertices.getD i Pt.zero) (recessCenter pos m.vertices) ≤ oR ^ 2
        then ⟨(m.vertices.getD i Pt.zero).x, (m.vertices.getD i Pt.zero).y,
              (m.vertices.getD i Pt.zero).z + dep⟩
        else m.vertices.getD i Pt.zero) := by
    rw [recessDisplace]
    exact getD_map_of_lt _ _ Pt.zero Pt.zero hi
  refine ⟨?_, ?_, ?_⟩
  · intro hle
    rw [hmap, if_neg]
    rintro ⟨-, hgt, -⟩
    rw [← h4] at hgt
    nlinarith
  · intro hgt hle
    rw [hmap, if_pos ⟨h5, by rw [← h4]; nlinarith, by rw [← h4]; nlinarith⟩]
  · intro hgt
    rw [hmap, if_neg]
    rintro ⟨-, -, hle⟩
    rw [← h4] at hle
    nlinarith

/-- C2 witness: the single vertex of `exRing` sits at distance 23 from the
pinned center (0,0) with 22.5 < 23 ≤ 28, and is displaced up by 2.5. -/
theorem claim2_witness :
    (45/2 : ℚ) < 23 ∧ (23 : ℚ) ≤ 28 ∧
    (recessDisplace (recessCenter (some (0, 0)) exRing.vertices) 28 (45/2) (5/2)
        (zMin exRing.vertices) exRing.vertices).getD 0 Pt.zero =
      ⟨(exRing.vertices.getD 0 Pt.zero).x, (exRing.vertices.getD 0 Pt.zero).y,
       (exRing.vertices.getD 0 Pt.zero).z + 5/2⟩ :=
  ⟨of_decide_eq_true (by with_unfolding_all rfl),
   of_decide_eq_true (by with_unfolding_all rfl),
   (claim2_recess_displacement exRing 28 (45/2) (5/2) (some (0, 0)) 0 23 (by decide)
      (of_decide_eq_true (by with_unfolding_all rfl))
      (of_decide_eq_true (by with_unfolding_all rfl))
      (of_decide_eq_true (by with_unfolding_all rfl))
      (by with_unfolding_all rfl)
      (of_decide_eq_true (by with_unfolding_all rfl))).2.1
     (of_decide_eq_true (by with_unfolding_all rfl))
     (of_decide_eq_true (by with_unfolding_all rfl))⟩

/-- C10: every pipeline entry point preserves the in-range invariant on face
indices: on a mesh whose faces reference valid vertex indices, and for any
triangulator producing in-range triangles (as Delaunay does), the meshes
returned by `fill_battery_gap`, `add_magsafe_recess` and
`apply_modifications` reference only indices below their own vertex count —
the offset bookkeeping for appended grid and wall faces never goes out of
range. -/
theorem claim10_indices_in_range (b : Nat → Bool) (tri : List (ℚ × ℚ) → List Face)
    (g : Nat → ℚ × ℚ) (oR iR dep : ℚ) (pos : Option (ℚ × ℚ)) (rg ar : Bool)
    (m : Mesh) (hm : m.validFaces)
    (ht : ∀ pts, ∀ f ∈ tri pts, faceInRange pts.length f) :
    (fillBatteryGap tri m).validFaces ∧
    (addMagsafeRecess b g oR iR dep pos m).validFaces ∧
    (applyModifications b tri g rg ar pos m).validFaces := by
  have hrec : ∀ (o2 i2 d2 : ℚ) (m2 : Mesh), m2.validFaces →
      (addMagsafeRecess b g o2 i2 d2 pos m2).validFaces := by
    intro o2 i2 d2 m2 hv2
    rw [addMagsafeRecess]
    exact fixNormals_valid ((repaired_repairMesh (recessAssembled_valid hv2)).2.2.2.2)
  refine ⟨fillBatteryGap_valid hm ht, hrec oR iR dep m hm, ?_⟩
  rw [applyModifications]
  apply fixNormals_valid
  cases rg <;> cases ar <;> simp only [Bool.false_eq_true, if_false, if_true, ite_true,
    ite_false]
  · exact hm
  · exact hrec _ _ _ m hm
  · exact fillBatteryGap_valid hm ht
  · exact hrec _ _ _ _ (fillBatteryGap_valid hm ht)

/-- C10 witness: the invariant holds concretely for `exFrame` with the fan
triangulator. -/
theorem claim10_witness :
    exFrame.validFaces ∧
    ((fillBatteryGap fanTri exFrame).validFaces ∧
      (addMagsafeRecess (fun _ => false) circleOne 28 (45/2) (5/2) none exFrame).validFaces ∧
      (applyModifications (fun _ => false) fanTri circleOne true true none
        exFrame).validFaces) :=
  ⟨of_decide_eq_true (by with_unfolding_all rfl),
   claim10_indices_in_range (fun _ => false) fanTri circleOne 28 (45/2) (5/2) none true true
     exFrame (of_decide_eq_true (by with_unfolding_all rfl)) fanTri_inRange⟩

/-- C1: with both flags false, `apply_modifications` only copies the mesh and
runs the final normal fix, which can at most reverse the winding of a face:
the output has exactly the input's vertex list (hence vertex count), the same
face count, and every face keeps its unordered vertex-index set and its
supporting plane — its cross-product normal is the input face's normal up to
the sign that winding contributes, so the geometric outward normal of every
face is unchanged. -/
theorem claim1_applyModifications_noop (b : Nat → Bool)
    (tri : List (ℚ × ℚ) → List Face) (g : Nat → ℚ × ℚ) (pos : Option (ℚ × ℚ))
    (m : Mesh) :
    (applyModifications b tri g false false pos m).vertices = m.vertices ∧
    (applyModifications b tri g false false pos m).faces.length = m.faces.length ∧
    ∀ j, j < m.faces.length →
      ((applyModifications b tri g false false pos m).faces.getD j ⟨0, 0, 0⟩
          = m.faces.getD j ⟨0, 0, 0⟩ ∨
        (applyModifications b tri g false false pos m).faces.getD j ⟨0, 0, 0⟩
          = revFace (m.faces.getD j ⟨0, 0, 0⟩)) ∧
      faceKey ((applyModifications b tri g false false pos m).faces.getD j ⟨0, 0, 0⟩)
        = faceKey (m.faces.getD j ⟨0, 0, 0⟩) ∧
      (faceCross (applyModifications b tri g false false pos m).vertices
          ((applyModifications b tri g false false pos m).faces.getD j ⟨0, 0, 0⟩)
          = faceCross m.vertices (m.faces.getD j ⟨0, 0, 0⟩) ∨
        faceCross (applyModifications b tri g false false pos m).vertices
          ((applyModifications b tri g false false pos m).faces.getD j ⟨0, 0, 0⟩)
          = ptNeg (faceCross m.vertices (m.faces.getD j ⟨0, 0, 0⟩))) := by
  have hout : applyModifications b tri g false false pos m = fixNormals b m := by
    rw [applyModifications]
    simp
  rw [hout]
  refine ⟨rfl, flipFaces_length b 0 m.faces, ?_⟩
  intro j hj
  have hg : (fixNormals b m).faces.getD j ⟨0, 0, 0⟩ =
      if b (0 + j) then revFace (m.faces.getD j ⟨0, 0, 0⟩) else m.faces.getD j ⟨0, 0, 0⟩ :=
    flipFaces_getD b m.faces 0 j hj
  by_cases hb : b (0 + j)
  · rw [hg, if_pos hb]
    exact ⟨Or.inr rfl, faceKey_revFace _, Or.inr (faceCross_revFace _ _)⟩
  · rw [hg, if_neg hb]
    exact ⟨Or.inl rfl, rfl, Or.inl rfl⟩

/-- C1 witness: the single face of `exTri` under an always-flip decision. -/
theorem claim1_witness :
    0 < exTri.faces.length ∧
    (((applyModifications (fun _ => true) fanTri circleOne false false none
          exTri).faces.getD 0 ⟨0, 0, 0⟩ = exTri.faces.getD 0 ⟨0, 0, 0⟩ ∨
      (applyModifications (fun _ => true) fanTri circleOne false false none
          exTri).faces.getD 0 ⟨0, 0, 0⟩ = revFace (exTri.faces.getD 0 ⟨0, 0, 0⟩)) ∧
     faceKey ((applyModifications (fun _ => true) fanTri circleOne false false none
          exTri).faces.getD 0 ⟨0, 0, 0⟩) = faceKey (exTri.faces.getD 0 ⟨0, 0, 0⟩) ∧
     (faceCross (applyModifications (fun _ => true) fanTri circleOne false false none
            exTri).vertices
          ((applyModifications (fun _ => true) fanTri circleOne false false none
            exTri).faces.getD 0 ⟨0, 0, 0⟩)
          = faceCross exTri.vertices (exTri.faces.getD 0 ⟨0, 0, 0⟩) ∨
      faceCross (applyModifications (fun _ => true) fanTri circleOne false false none
            exTri).vertices
          ((applyModifications (fun _ => true) fanTri circleOne false false none
            exTri).faces.getD 0 ⟨0, 0, 0⟩)
          = ptNeg (faceCross exTri.vertices (exTri.faces.getD 0 ⟨0, 0, 0⟩)))) :=
  ⟨by decide,
   (claim1_applyModifications_noop (fun _ => true) fanTri circleOne none exTri).2.2 0
     (by decide)⟩

set_option maxRecDepth 8000 in
set_option maxHeartbeats 4000000 in
/-- C5: the recess samples exactly `num_segments = 64` angles, equally spaced
over `[0, 2π)` (`linspace` with `endpoint=False`; the irrational 2π is the
parameter `w`): the k-th angle is `w·k/64`, nonnegative and below `w`.  The
synthesized outer wall and inner wall each consist of exactly 2·64 = 128
triangles; the combined face list is exactly their interleaving (a
permutation of outer ++ inner), appended at any vertex offset as the shift of
the offset-0 topology.  Each inner-wall face is, up to an
orientation-preserving cyclic rotation, the winding reversal of the
corresponding outer-wall face shifted to the inner ring's vertices; and for
every segment the vertical segment edge is shared by exactly two triangles of
its wall, closing the ring. -/
theorem claim5_wall_topology (w : ℚ) :
    numSegments = 64 ∧
    (recessAngles w).length = 64 ∧
    (∀ k, k < 64 → (recessAngles w).getD k 0 = w * (k : ℚ) / 64) ∧
    (0 < w → ∀ k, k < 64 →
      0 ≤ (recessAngles w).getD k 0 ∧ (recessAngles w).getD k 0 < w) ∧
    (outerWallFaces 0 64).length = 2 * 64 ∧
    (innerWallFaces 0 64).length = 2 * 64 ∧
    (wallFaces 0 64).Perm (outerWallFaces 0 64 ++ innerWallFaces 0 64) ∧
    (∀ o n, wallFaces o n = (wallFaces 0 n).map (shiftFace o)) ∧
    (∀ i, i < 64 →
      inWallPair 0 64 i =
        [rotFace (shiftFace 128 (revFace ((outWallPair 0 64 i).getD 1 ⟨0, 0, 0⟩))),
         rotFace (shiftFace 128 (revFace ((outWallPair 0 64 i).getD 0 ⟨0, 0, 0⟩)))]) ∧
    (∀ i, i < 64 →
      (outerWallFaces 0 64).countP (hasEdge (2*i) (2*i+1)) = 2 ∧
      (innerWallFaces 0 64).countP (hasEdge (128 + 2*i) (128 + 2*i + 1)) = 2) := by
  have hangle : ∀ k, k < 64 → (recessAngles w).getD k 0 = w * (k : ℚ) / 64 := by
    intro k hk
    rw [recessAngles, linspaceNoEnd]
    rw [getD_map_of_lt _ _ 0 0 (by rw [List.length_range]; exact hk)]
    rw [List.getD_eq_getElem _ _ (by rw [List.length_range]; exact hk), List.getElem_range]
    have hcast : ((numSegments : Nat) : ℚ) = 64 := by with_unfolding_all rfl
    rw [hcast]
    ring
  refine ⟨rfl, by simp [recessAngles, linspaceNoEnd, numSegments], hangle, ?_,
    by decide, by decide, flatMap_append_perm _ _ _, wallFaces_shift, by decide, by decide⟩
  intro hw k hk
  rw [hangle k hk]
  have hk0 : (0 : ℚ) ≤ (k : ℚ) := Nat.cast_nonneg k
  have hk63 : (k : ℚ) ≤ 63 := by exact_mod_cast (by omega : k ≤ 63)
  constructor
  · positivity
  · rw [div_lt_iff₀ (by norm_num : (0:ℚ) < 64)]
    nlinarith

/-- C5 witness: concrete instances at `w = 7`, segment 5. -/
theorem claim5_witness :
    (0 : ℚ) < 7 ∧ (5 : Nat) < 64 ∧
    (recessAngles 7).getD 5 0 = 7 * ((5 : Nat) : ℚ) / 64 ∧
    (0 ≤ (recessAngles 7).getD 5 0 ∧ (recessAngles 7).getD 5 0 < 7) ∧
    inWallPair 0 64 5 =
      [rotFace (shiftFace 128 (revFace ((outWallPair 0 64 5).getD 1 ⟨0, 0, 0⟩))),
       rotFace (shiftFace 128 (revFace ((outWallPair 0 64 5).getD 0 ⟨0, 0, 0⟩)))] ∧
    ((outerWallFaces 0 64).countP (hasEdge (2*5) (2*5+1)) = 2 ∧
      (innerWallFaces 0 64).countP (hasEdge (128 + 2*5) (128 + 2*5 + 1)) = 2) :=
  ⟨of_decide_eq_true (by with_unfolding_all rfl), by decide,
   (claim5_wall_topology 7).2.2.1 5 (by decide),
   (claim5_wall_topology 7).2.2.2.1 (of_decide_eq_true (by with_unfolding_all rfl)) 5
     (by decide),
   (claim5_wall_topology 7).2.2.2.2.2.2.2.2.1 5 (by decide),
   (claim5_wall_topology 7).2.2.2.2.2.2.2.2.2 5 (by decide)⟩
